import Mathlib

/-!
Verification of the CSV-to-Okta reconciliation and role-mining engine of the
`okta-disconnected-app-connector` repository.

The development shallowly embeds the JavaScript source:

* a CSV `Row` is an insertion-ordered association list of column name to
  string cell value (the shape `csv-parse` with `columns: true` produces;
  a JS string is falsy exactly when it is empty);
* JS objects used as maps (`csvUsers`, `oktaUsers`, `entitlementsForGrant`,
  the `Map` in `analyzeRoles`) are insertion-ordered association lists with
  assignment modelled by `upsert` (replace in place, else append);
* `String.prototype.split(',')`, `trim`, `toLowerCase`, `startsWith` and the
  default lexicographic `Array.prototype.sort()` are re-implemented over
  `String.data` character lists so that every definition evaluates inside
  the kernel;
* `JSON.stringify` of a string-keyed object of string arrays is the literal
  serialization `serializeBundle` (control-character escaping of JSON is not
  modelled; only quote and backslash escaping, which is enough for every
  property proved here since no claim needs injectivity of the encoding).
-/

/-- Character comparison used by the JS default sort: by code unit. -/
def charLt (a b : Char) : Bool := decide (a < b)

/-- Lexicographic comparison of character lists, mirroring how the JS
default `Array.prototype.sort()` compares strings. -/
def lexLe : List Char → List Char → Bool
  | [], _ => true
  | _ :: _, [] => false
  | a :: as, b :: bs => if a < b then true else if b < a then false else lexLe as bs

/-- String comparison for the JS default sort. -/
def strLe (a b : String) : Bool := lexLe a.data b.data

/-- JS `s.toLowerCase()` (ASCII case folding suffices for this code base). -/
def lowerStr (s : String) : String := ⟨s.data.map Char.toLower⟩

/-- Auxiliary splitter: JS `s.split(',')`. -/
def splitCommaAux : List Char → List Char → List String
  | [], acc => [⟨acc.reverse⟩]
  | c :: rest, acc =>
    if c = ',' then ⟨acc.reverse⟩ :: splitCommaAux rest []
    else splitCommaAux rest (c :: acc)

/-- JS `s.split(',')`. -/
def splitComma (s : String) : List String := splitCommaAux s.data []

/-- JS `s.trim()`. -/
def trimStr (s : String) : String :=
  ⟨((s.data.dropWhile Char.isWhitespace).reverse.dropWhile Char.isWhitespace).reverse⟩

/-- JS `key.startsWith('ent_')`: the entitlement-column marker test. -/
def isEntCol (s : String) : Bool := "ent_".data.isPrefixOf s.data

/-- The split-trim-discard-empties rule applied to one CSV cell:
`value.split(',').map(v => v.trim()).filter(v => v)`. -/
def splitTrim (v : String) : List String :=
  ((splitComma v).map trimStr).filter (fun p => decide (p ≠ ""))

/-- Stable insertion of an element into a list, keeping it before the first
element it does not come strictly after (the building block of the sort). -/
def insertLe (le : α → α → Bool) (x : α) : List α → List α
  | [] => [x]
  | y :: t => if le x y then x :: y :: t else y :: insertLe le x t

/-- Stable sort by a boolean comparison, modelling JS `Array.prototype.sort`
with a consistent comparator. -/
def sortBy (le : α → α → Bool) : List α → List α
  | [] => []
  | x :: t => insertLe le x (sortBy le t)

/-- JS `values.sort()` on an array of strings. -/
def sortStrings (l : List String) : List String := sortBy strLe l

/-- Lookup in an insertion-ordered association list (JS `obj[key]`:
`none` plays the role of `undefined`). -/
def alookup (m : List (String × V)) (k : String) : Option V :=
  match m with
  | [] => none
  | (k', v) :: t => if k' = k then some v else alookup t k

/-- JS property assignment `obj[key] = v`: replace in place if the key is
present (keeping the key's position), otherwise append. -/
def upsert (m : List (String × V)) (k : String) (v : V) : List (String × V) :=
  match m with
  | [] => [(k, v)]
  | (k', v') :: t => if k' = k then (k, v) :: t else (k', v') :: upsert t k v

/-- Removal of a key from the remote snapshot (the effect of
`unassignUserFromApp` on the next observed state). -/
def eraseKey (m : List (String × V)) (k : String) : List (String × V) :=
  m.filter (fun p => decide (p.1 ≠ k))

/-- One CSV record: column name to raw string cell value, in header order
(`csv-parse` with `columns: true` yields one such object per data row). -/
abbrev Row := List (String × String)

/-- The ordered candidate identity columns tried by `syncUsers` and
`processUsers`: `['username', 'login', 'email', 'user', 'userid',
'user_id', 'mail']`. -/
def usernameKeys : List String :=
  ["username", "login", "email", "user", "userid", "user_id", "mail"]

/-- Identity extraction from a Row, mirroring the source loop: for each
candidate key in order, find the first column whose lower-cased name equals
the candidate; if that column's value is truthy (non-empty) take it and
stop, otherwise try the next candidate. -/
def identityOf (r : Row) : Option String :=
  usernameKeys.findSome? fun key =>
    match r.find? (fun kv => decide (lowerStr kv.1 = key)) with
    | some kv => if kv.2 ≠ "" then some kv.2 else none
    | none => none

/-- The lower-cased map key a row is stored under, when it has an identity
(`csvUsers[username.toLowerCase()] = record`). -/
def rowKey (r : Row) : Option String := (identityOf r).map lowerStr

/-- Building the `csvUsers` desired-state map from the parsed records:
rows without an identity are silently skipped, rows with one are assigned
into the map (so a later duplicate key overwrites an earlier row). -/
def buildCsvUsers (rows : List Row) : List (String × Row) :=
  rows.foldl
    (fun m r =>
      match identityOf r with
      | some u => upsert m (lowerStr u) r
      | none => m)
    []

/-- One entry of the `toUpdate` list: `{ username, record, oktaUser }`
(of the remote entity only its stored app-user profile matters here). -/
structure UpdateEntry where
  key : String
  record : Row
  current : Row
deriving DecidableEq

/-- The three-way classification of `syncUsers`: desired keys with no
remote counterpart. -/
def toAddL (csv okta : List (String × Row)) : List (String × Row) :=
  csv.filter (fun p => (alookup okta p.1).isNone)

/-- Desired keys that are also remote keys, paired with the remote
entity's stored profile (the source pushes every such key to `toUpdate`;
field-level diffing happens later, in the apply phase). -/
def toUpdateL (csv okta : List (String × Row)) : List UpdateEntry :=
  csv.filterMap (fun p => (alookup okta p.1).map (fun cur => ⟨p.1, p.2, cur⟩))

/-- Remote keys with no desired counterpart. -/
def toRemoveL (csv okta : List (String × Row)) : List (String × Row) :=
  okta.filter (fun p => (alookup csv p.1).isNone)

/-- The ChangeSet computed once per reconciliation pass. -/
structure ChangeSet where
  toAdd : List (String × Row)
  toUpdate : List UpdateEntry
  toRemove : List (String × Row)
deriving DecidableEq

/-- ChangeSet computation from the desired-state and remote-state maps. -/
def computeChangeSet (csv okta : List (String × Row)) : ChangeSet :=
  ⟨toAddL csv okta, toUpdateL csv okta, toRemoveL csv okta⟩

/-- The app-user profile written by the apply phase: all columns of the
record with truthy values (`if (value) appUserProfile[key] = value` for
additions, identically `expectedProfile` for updates). -/
def buildProfile (r : Row) : Row :=
  r.filter (fun kv => decide (kv.2 ≠ ""))

/-- The changed-field detection of the update phase: every truthy desired
column whose value differs (strict `!==`) from the remote entity's stored
attribute for that column, absent attributes always counting as different. -/
def changedFields (record current : Row) : List String :=
  ((buildProfile record).filter
    (fun kv => !(decide (alookup current kv.1 = some kv.2)))).map Prod.fst

/-- One remote write of the apply phase, as observable trace events. -/
inductive SyncOp where
  | remove (key : String)
  | add (key : String)
  | update (key : String)
deriving DecidableEq

/-- Test used to state the apply-order property. -/
def SyncOp.isRemove : SyncOp → Bool
  | .remove _ => true
  | _ => false

/-- Key of a trace event. -/
def SyncOp.key : SyncOp → String
  | .remove k => k
  | .add k => k
  | .update k => k

/-- Effect of the removal phase on the remote snapshot: each `toRemove`
entry is unassigned from the app. -/
def applyRemovals (remote : List (String × Row)) (rs : List (String × Row)) :
    List (String × Row) :=
  rs.foldl (fun m p => eraseKey m p.1) remote

/-- Effect of the addition phase: each added user ends up assigned to the
app with the truthy-column profile of its record. -/
def applyAdds (remote : List (String × Row)) (as : List (String × Row)) :
    List (String × Row) :=
  as.foldl (fun m p => upsert m p.1 (buildProfile p.2)) remote

/-- Effect of one `toUpdate` entry: the remote profile is rewritten only
when at least one field changed; otherwise no API call is made and the
entity is untouched. -/
def applyUpdateStep (m : List (String × Row)) (e : UpdateEntry) :
    List (String × Row) :=
  if changedFields e.record e.current = [] then m
  else upsert m e.key (buildProfile e.record)

/-- Effect of the update phase. -/
def applyUpdates (remote : List (String × Row)) (us : List UpdateEntry) :
    List (String × Row) :=
  us.foldl applyUpdateStep remote

/-- Observable outcome of one `syncUsers` pass in which every attempted
remote operation succeeds: the ChangeSet, the ordered trace of remote
writes (removals, then additions, then the updates that had changed
fields), the resulting remote state, and the printed summary counts. -/
structure SyncResult where
  changes : ChangeSet
  trace : List SyncOp
  remoteAfter : List (String × Row)
  added : Nat
  updated : Nat
  removed : Nat
  totalCsv : Nat
deriving DecidableEq

/-- The pass for a given desired-state map: classification, then removals,
then additions, then updates (writes only for changed entries). -/
def syncCore (csv remote : List (String × Row)) : SyncResult :=
  let cs := computeChangeSet csv remote
  let changedUpdates :=
    cs.toUpdate.filter (fun e => !(decide (changedFields e.record e.current = [])))
  { changes := cs
    trace := cs.toRemove.map (fun p => SyncOp.remove p.1)
      ++ cs.toAdd.map (fun p => SyncOp.add p.1)
      ++ changedUpdates.map (fun e => SyncOp.update e.key)
    remoteAfter :=
      applyUpdates (applyAdds (applyRemovals remote cs.toRemove) cs.toAdd) cs.toUpdate
    added := cs.toAdd.length
    updated := changedUpdates.length
    removed := cs.toRemove.length
    totalCsv := csv.length }

/-- One full `syncUsers` pass from the parsed CSV rows. -/
def syncPass (rows : List Row) (remote : List (String × Row)) : SyncResult :=
  syncCore (buildCsvUsers rows) remote

/-- Observable outcome of the `processUsers` provisioning loop (all remote
operations modelled as succeeding): rows without an identity column are
reported as skipped and counted in `failed`, all other rows are processed
in order. -/
structure ProcessResult where
  failed : Nat
  processed : List String
deriving DecidableEq

/-- The `processUsers` per-row loop skeleton. -/
def processUsersModel (rows : List Row) : ProcessResult :=
  rows.foldl
    (fun acc r =>
      match identityOf r with
      | none => { acc with failed := acc.failed + 1 }
      | some u => { acc with processed := acc.processed ++ [u] })
    ⟨0, []⟩

/-- JSON string escaping as far as this code base needs it (quote and
backslash; `JSON.stringify` control-character escapes are not exercised by
any proof here). -/
def jsonEscape (s : String) : String :=
  ⟨s.data.foldr
    (fun c acc => if c = '"' ∨ c = '\\' then '\\' :: c :: acc else c :: acc) []⟩

/-- A JSON string literal. -/
def jstr (s : String) : String := "\"" ++ jsonEscape s ++ "\""

/-- Comma-joining of serialized pieces. -/
def joinSep (sep : String) : List String → String
  | [] => ""
  | [x] => x
  | x :: y :: t => x ++ sep ++ joinSep sep (y :: t)

/-- The `JSON.stringify` of a string-keyed object whose values are string
arrays, written in entry order. -/
def serializeBundle (b : List (String × List String)) : String :=
  "\x7b" ++
    joinSep ","
      (b.map (fun p =>
        jstr p.1 ++ ":" ++ "[" ++ joinSep "," (p.2.map jstr) ++ "]")) ++
    "\x7d"

/-- `extractBundle(record)`: every `ent_`-prefixed column with a truthy
cell contributes its comma-split, trimmed, empties-discarded value list,
sorted — and not deduplicated — keyed by the full column name; columns
whose cell splits to nothing are omitted. -/
def extractBundle (record : Row) : List (String × List String) :=
  record.filterMap (fun kv =>
    if isEntCol kv.1 && decide (kv.2 ≠ "") then
      if (splitTrim kv.2).isEmpty then none
      else some (kv.1, sortStrings (splitTrim kv.2))
    else none)

/-- Key comparison for the signature's key sort. -/
def leKey (p q : String × List String) : Bool := strLe p.1 q.1

/-- `createBundleSignature(bundle)`: sort the keys, sort each value array,
serialize the result deterministically. -/
def createBundleSignature (bundle : List (String × List String)) : String :=
  serializeBundle ((sortBy leKey bundle).map (fun p => (p.1, sortStrings p.2)))

/-- A bundle together with a permutation of its keys and a permutation of
each of its value arrays. -/
def BundlePerm (b b' : List (String × List String)) : Prop :=
  ∃ c, List.Forall₂ (fun p q => p.1 = q.1 ∧ p.2.Perm q.2) b c ∧ c.Perm b'

/-- A second row presenting the same columns in permuted order, with each
cell splitting to a permutation of the first row's cell values. -/
def RowValuesPerm (r r' : Row) : Prop :=
  ∃ c, List.Forall₂
      (fun p q => p.1 = q.1 ∧ (splitTrim p.2).Perm (splitTrim q.2)) r c ∧
    c.Perm r'

/-- A PermissionBundle as the role miner passes it around. -/
abbrev Bundle := List (String × List String)

/-- JS truthy-chaining `record.username || record.Username || record.email
|| record.Email || 'unknown'` over exact property accesses. -/
def firstTruthy : List (Option String) → String → String
  | [], d => d
  | o :: t, d =>
    match o with
    | some v => if v ≠ "" then v else firstTruthy t d
    | none => firstTruthy t d

/-- Username pulled out of a record by `analyzeRoles`. -/
def usernameOfRecord (r : Row) : String :=
  firstTruthy
    [alookup r ("username"), alookup r ("Username"),
     alookup r ("email"), alookup r ("Email")] ("unknown")

/-- JS `Map` grouping step: append the member to the signature's group,
creating the group on first sight (insertion order preserved). -/
def appendGroup (m : List (String × List (String × Bundle))) (sig : String)
    (item : String × Bundle) : List (String × List (String × Bundle)) :=
  match m with
  | [] => [(sig, [item])]
  | (s, items) :: t =>
    if s = sig then (s, items ++ [item]) :: t
    else (s, items) :: appendGroup t sig item

/-- The grouping loop of `analyzeRoles`: records with an empty bundle are
skipped, the rest are grouped by bundle signature, keeping the username
and the bundle of each member. -/
def bundleGroups (records : List Row) : List (String × List (String × Bundle)) :=
  records.foldl
    (fun m record =>
      if (extractBundle record).isEmpty then m
      else appendGroup m (createBundleSignature (extractBundle record))
        (usernameOfRecord record, extractBundle record))
    []

/-- `generateRoleName(bundle, index)`: underscore-joined alphanumeric-only
first values of each entitlement, with a `Role_<n>` fallback when empty or
longer than 50 characters. -/
def generateRoleName (bundle : Bundle) (index : Nat) : String :=
  let parts := bundle.map (fun p => ⟨(p.2.headD ("")).data.filter Char.isAlphanum⟩)
  if parts.length > 0 then
    if (joinSep "_" parts).length > 50 then ("Role_" ++ toString (index + 1))
    else joinSep "_" parts
  else ("Role_" ++ toString (index + 1))

/-- A role candidate as emitted by `analyzeRoles` (the generated natural-
language `description` string is not modelled; no claim concerns it). -/
structure RoleCandidate where
  roleName : String
  userCount : Nat
  percentage : ℚ
  users : List String
  permissions : Bundle

/-- Result of `analyzeRoles`: candidates plus the aggregate statistics
(`coverage` is flattened into the last two fields). -/
structure RoleAnalysis where
  totalUsers : Nat
  uniqueProfiles : Nat
  roleCandidates : List RoleCandidate
  usersInRoles : Nat
  coveragePercentage : ℚ

/-- The role-mining core: group by signature, keep groups meeting the
threshold (indexing only retained groups), generate candidates with
percentages over `records.length` — the full input row count, including
rows skipped for empty bundles — then sort by member count descending. -/
def analyzeRoles (records : List Row) (minUserThreshold : Nat) : RoleAnalysis :=
  let groups := bundleGroups records
  let cands := groups.foldl
    (fun acc g =>
      if g.2.length ≥ minUserThreshold then
        acc ++ [{ roleName := generateRoleName (g.2.headD (("unknown"), [])).2 acc.length
                  userCount := g.2.length
                  percentage := ((g.2.length : ℚ) / ((records.length : Nat) : ℚ)) * 100
                  users := g.2.map Prod.fst
                  permissions := (g.2.headD (("unknown"), [])).2 }]
      else acc)
    []
  let sorted := sortBy (fun a b => Nat.ble b.userCount a.userCount) cands
  let usersInRoles := sorted.foldl (fun s r => s + r.userCount) 0
  { totalUsers := records.length
    uniqueProfiles := groups.length
    roleCandidates := sorted
    usersInRoles := usersInRoles
    coveragePercentage :=
      if records.length > 0 then ((usersInRoles : ℚ) / ((records.length : Nat) : ℚ)) * 100
      else 0 }

/-- Concrete input for the coverage-denominator witness: two rows sharing
one bundle and two rows with no entitlements at all. -/
def wRecords : List Row :=
  [[("username", "a@x.com"), ("ent_Role", "Admin,Dev")],
   [("username", "b@x.com"), ("ent_Role", "Dev, Admin")],
   [("username", "c@x.com")],
   [("username", "d@x.com")]]

/-- A remote entitlement value as stored in `entitlementsMap`. -/
structure EntValue where
  id : String
  name : String
  description : String
deriving DecidableEq

/-- A resolved remote entitlement: its id and its known values. -/
structure Entitlement where
  id : String
  values : List EntValue
deriving DecidableEq

/-- One value entry of a grant payload group. -/
structure GrantValue where
  id : String
  name : String
  description : String
  label : String
deriving DecidableEq

/-- One group of the grant payload: an entitlement id with its value
entries. -/
structure GrantGroup where
  id : String
  values : List GrantValue
deriving DecidableEq

/-- JS `[...new Set(xs)]`: deduplication keeping first occurrences. -/
def jsDedupAux (seen : List String) : List String → List String
  | [] => []
  | x :: t => if x ∈ seen then jsDedupAux seen t else x :: jsDedupAux (x :: seen) t

/-- Deduplicated cell values of `buildUserEntitlements`. -/
def jsDedup (l : List String) : List String := jsDedupAux [] l

/-- JS `key.substring(4)`: the entitlement name behind the column marker. -/
def dropMarker (s : String) : String := ⟨s.data.drop 4⟩

/-- The value object pushed into a grant group. -/
def mkGrantValue (ev : EntValue) (val : String) : GrantValue :=
  { id := ev.id
    name := if ev.name ≠ "" then ev.name else val
    description := if ev.description ≠ "" then ev.description else val
    label := if ev.name ≠ "" then ev.name else val }

/-- Insertion of one resolved value into the payload being assembled:
create the entitlement's group on first use, and skip the value if its id
is already present in the group. -/
def addValue (groups : List GrantGroup) (entId : String) (gv : GrantValue) :
    List GrantGroup :=
  if groups.any (fun g => decide (g.id = entId)) then
    groups.map (fun g =>
      if g.id = entId then
        if g.values.any (fun v => decide (v.id = gv.id)) then g
        else { g with values := g.values ++ [gv] }
      else g)
  else groups ++ [{ id := entId, values := [gv] }]

/-- The per-value resolution loop: case-insensitive name lookup among the
entitlement's known values, skipping names that resolve to nothing. -/
def resolveValues (ent : Entitlement) (vals : List String)
    (groups : List GrantGroup) : List GrantGroup :=
  vals.foldl
    (fun gs val =>
      match ent.values.find?
        (fun ev => decide (ev.name ≠ "") && decide (lowerStr ev.name = lowerStr val)) with
      | some ev => if ev.id ≠ "" then addValue gs ent.id (mkGrantValue ev val) else gs
      | none => gs)
    groups

/-- `buildUserEntitlements(record, entitlementsMap)`: assemble the grant
payload for one row, grouped by entitlement id, deduplicating cell values
and value ids. -/
def buildUserEntitlements (record : Row)
    (entitlementsMap : List (String × Entitlement)) : List GrantGroup :=
  record.foldl
    (fun groups kv =>
      if isEntCol kv.1 && decide (kv.2 ≠ "") then
        match alookup entitlementsMap (lowerStr (dropMarker kv.1)) with
        | some ent =>
          if ent.id ≠ "" then resolveValues ent (jsDedup (splitTrim kv.2)) groups
          else groups
        | none => groups
      else groups)
    []

/-- The payload invariant of Claim C9. -/
def GrantInv (groups : List GrantGroup) : Prop :=
  (groups.map GrantGroup.id).Nodup ∧
    ∀ g ∈ groups, (g.values.map GrantValue.id).Nodup

theorem insertLe_perm (le : α → α → Bool) (x : α) :
    ∀ l : List α, (insertLe le x l).Perm (x :: l)
  | [] => List.Perm.refl _
  | y :: t => by
    simp only [insertLe]
    by_cases h : le x y = true
    · rw [if_pos h]
    · rw [if_neg h]
      exact ((insertLe_perm le x t).cons y).trans (List.Perm.swap x y t)

theorem sortBy_perm (le : α → α → Bool) : ∀ l : List α, (sortBy le l).Perm l
  | [] => List.Perm.refl _
  | x :: t => (insertLe_perm le x (sortBy le t)).trans ((sortBy_perm le t).cons x)

theorem pairwise_insertLe (le : α → α → Bool)
    (htrans : ∀ a b c, le a b = true → le b c = true → le a c = true)
    (htot : ∀ a b, le a b = true ∨ le b a = true) (x : α) :
    ∀ {l : List α}, l.Pairwise (fun a b => le a b = true) →
      (insertLe le x l).Pairwise (fun a b => le a b = true) := by
  intro l
  induction l with
  | nil => intro _; simp [insertLe]
  | cons y t ih =>
    intro hp
    rcases List.pairwise_cons.mp hp with ⟨hy, ht⟩
    simp only [insertLe]
    by_cases h : le x y = true
    · rw [if_pos h]
      refine List.pairwise_cons.mpr ⟨?_, hp⟩
      intro z hz
      rcases List.mem_cons.mp hz with rfl | hz
      · exact h
      · exact htrans x y z h (hy z hz)
    · rw [if_neg h]
      refine List.pairwise_cons.mpr ⟨?_, ih ht⟩
      intro z hz
      have hz' : z = x ∨ z ∈ t := by
        have := (insertLe_perm le x t).mem_iff.mp hz
        simpa using this
      rcases hz' with rfl | hz'
      · rcases htot y z with hyz | hzy
        · exact hyz
        · exact absurd hzy h
      · exact hy z hz'

theorem pairwise_sortBy (le : α → α → Bool)
    (htrans : ∀ a b c, le a b = true → le b c = true → le a c = true)
    (htot : ∀ a b, le a b = true ∨ le b a = true) :
    ∀ l : List α, (sortBy le l).Pairwise (fun a b => le a b = true)
  | [] => List.Pairwise.nil
  | x :: t => pairwise_insertLe le htrans htot x (pairwise_sortBy le htrans htot t)

theorem lexLe_total : ∀ a b : List Char, lexLe a b = true ∨ lexLe b a = true
  | [], _ => Or.inl rfl
  | _ :: _, [] => Or.inr rfl
  | a :: as, b :: bs => by
    rcases lt_trichotomy a b with h | h | h
    · left; simp [lexLe, h]
    · subst h
      rcases lexLe_total as bs with ih | ih
      · left; simpa [lexLe] using ih
      · right; simpa [lexLe] using ih
    · right; simp [lexLe, h]

theorem lexLe_trans : ∀ a b c : List Char,
    lexLe a b = true → lexLe b c = true → lexLe a c = true
  | [], _, _ => by intro _ _; rfl
  | _ :: _, [], _ => by intro h _; exact absurd h (by simp [lexLe])
  | _ :: _, _ :: _, [] => by intro _ h; exact absurd h (by simp [lexLe])
  | a :: as, b :: bs, c :: cs => by
    intro hab hbc
    rcases lt_trichotomy a b with h1 | h1 | h1
    · rcases lt_trichotomy b c with h2 | h2 | h2
      · simp [lexLe, lt_trans h1 h2]
      · subst h2; simp [lexLe, h1]
      · exact absurd hbc (by simp [lexLe, h2, lt_asymm h2])
    · subst h1
      rcases lt_trichotomy a c with h2 | h2 | h2
      · simp [lexLe, h2]
      · subst h2
        have has : lexLe as bs = true := by
          simpa [lexLe, lt_irrefl] using hab
        have hbs : lexLe bs cs = true := by
          simpa [lexLe, lt_irrefl] using hbc
        simpa [lexLe, lt_irrefl] using lexLe_trans as bs cs has hbs
      · exact absurd hbc (by simp [lexLe, h2, lt_asymm h2])
    · exact absurd hab (by simp [lexLe, h1, lt_asymm h1])

theorem lexLe_antisymm : ∀ a b : List Char,
    lexLe a b = true → lexLe b a = true → a = b
  | [], [] => by intro _ _; rfl
  | [], _ :: _ => by intro _ h; exact absurd h (by simp [lexLe])
  | _ :: _, [] => by intro h _; exact absurd h (by simp [lexLe])
  | a :: as, b :: bs => by
    intro hab hba
    rcases lt_trichotomy a b with h1 | h1 | h1
    · exact absurd hba (by simp [lexLe, h1, lt_asymm h1])
    · subst h1
      have has : lexLe as bs = true := by simpa [lexLe, lt_irrefl] using hab
      have hbs : lexLe bs as = true := by simpa [lexLe, lt_irrefl] using hba
      rw [lexLe_antisymm as bs has hbs]
    · exact absurd hab (by simp [lexLe, h1, lt_asymm h1])

theorem strLe_total (a b : String) : strLe a b = true ∨ strLe b a = true :=
  lexLe_total a.data b.data

theorem strLe_trans (a b c : String) :
    strLe a b = true → strLe b c = true → strLe a c = true :=
  lexLe_trans a.data b.data c.data

theorem strLe_antisymm (a b : String) :
    strLe a b = true → strLe b a = true → a = b := by
  intro h₁ h₂
  have := lexLe_antisymm a.data b.data h₁ h₂
  cases a; cases b
  exact congrArg String.mk this

/-- Sorting equal-multiset string lists (with the JS default comparator)
gives identical results: the heart of signature canonicality. -/
theorem sortStrings_congr {l l' : List String} (h : l.Perm l') :
    sortStrings l = sortStrings l' := by
  have hperm : (sortStrings l).Perm (sortStrings l') :=
    ((sortBy_perm strLe l).trans h).trans (sortBy_perm strLe l').symm
  have hs : (sortStrings l).Pairwise (fun a b => strLe a b = true) :=
    pairwise_sortBy strLe strLe_trans strLe_total l
  have hs' : (sortStrings l').Pairwise (fun a b => strLe a b = true) :=
    pairwise_sortBy strLe strLe_trans strLe_total l'
  exact @List.eq_of_perm_of_sorted _ _
    ⟨fun a b h1 h2 => strLe_antisymm a b h1 h2⟩ _ _ hperm hs hs'

theorem alookup_eq_none_iff (m : List (String × V)) (k : String) :
    alookup m k = none ↔ k ∉ m.map Prod.fst := by
  induction m with
  | nil => simp [alookup]
  | cons p t ih =>
    by_cases h : p.1 = k
    · simp [alookup, h]
    · simp [alookup, h, ih, Ne.symm h]

theorem alookup_mem {m : List (String × V)} :
    ∀ {k : String} {v : V}, alookup m k = some v → (k, v) ∈ m := by
  induction m with
  | nil => intro k v h; simp [alookup] at h
  | cons p t ih =>
    intro k v h
    obtain ⟨k', v'⟩ := p
    by_cases hp : k' = k
    · subst hp
      have h' : v' = v := by simpa [alookup] using h
      subst h'
      exact List.mem_cons_self _ _
    · simp only [alookup, if_neg hp] at h
      exact List.mem_cons_of_mem _ (ih h)

theorem mem_alookup {m : List (String × V)} {k : String} {v : V}
    (hnd : (m.map Prod.fst).Nodup) (h : (k, v) ∈ m) : alookup m k = some v := by
  induction m with
  | nil => simp at h
  | cons p t ih =>
    simp only [List.map_cons, List.nodup_cons] at hnd
    rcases List.mem_cons.mp h with rfl | h
    · simp [alookup]
    · have hk : p.1 ≠ k := by
        intro hc
        exact hnd.1 (hc ▸ (List.mem_map_of_mem Prod.fst h))
      simp [alookup, hk, ih hnd.2 h]

theorem alookup_upsert (m : List (String × V)) (k : String) (v : V) (k' : String) :
    alookup (upsert m k v) k' = if k = k' then some v else alookup m k' := by
  induction m with
  | nil => by_cases h : k = k' <;> simp [upsert, alookup, h]
  | cons p t ih =>
    obtain ⟨k₀, v₀⟩ := p
    by_cases hp : k₀ = k
    · subst hp
      by_cases h : k₀ = k'
      · subst h; simp [upsert, alookup]
      · simp [upsert, alookup, h]
    · by_cases h : k₀ = k'
      · subst h
        have hne : ¬ k = k₀ := fun hc => hp hc.symm
        simp [upsert, alookup, hp, hne]
      · simp [upsert, alookup, hp, h, ih]

theorem alookup_eraseKey (m : List (String × V)) (k k' : String) :
    alookup (eraseKey m k) k' = if k = k' then none else alookup m k' := by
  induction m with
  | nil => by_cases h : k = k' <;> simp [eraseKey, alookup, h]
  | cons p t ih =>
    by_cases hp : p.1 = k
    · subst hp
      by_cases h : p.1 = k'
      · simpa [eraseKey, alookup, h] using ih
      · simpa [eraseKey, alookup, h] using ih
    · by_cases h : p.1 = k'
      · subst h
        have : ¬ k = p.1 := fun hc => hp hc.symm
        simp [eraseKey, alookup, hp, this]
      · simpa [eraseKey, alookup, hp, h] using ih

theorem mem_keys_upsert {m : List (String × V)} {k : String} {v : V} {a : String}
    (h : a ∈ (upsert m k v).map Prod.fst) : a ∈ m.map Prod.fst ∨ a = k := by
  by_cases hk : k = a
  · right; exact hk.symm
  · left
    have hne : ¬ alookup (upsert m k v) a = none := by
      rw [alookup_eq_none_iff]; exact fun hc => hc h
    rw [alookup_upsert, if_neg hk] at hne
    by_contra hc
    exact hne ((alookup_eq_none_iff m a).mpr hc)

theorem upsert_keys_nodup {k : String} {v : V} :
    ∀ {m : List (String × V)}, (m.map Prod.fst).Nodup →
      ((upsert m k v).map Prod.fst).Nodup := by
  intro m
  induction m with
  | nil => intro _; simp [upsert]
  | cons p t ih =>
    intro hnd
    obtain ⟨k₀, v₀⟩ := p
    simp only [List.map_cons, List.nodup_cons] at hnd
    by_cases hp : k₀ = k
    · rw [show upsert ((k₀, v₀) :: t) k v = (k, v) :: t from by simp [upsert, hp]]
      simp only [List.map_cons, List.nodup_cons]
      exact ⟨hp ▸ hnd.1, hnd.2⟩
    · rw [show upsert ((k₀, v₀) :: t) k v = (k₀, v₀) :: upsert t k v from by
        simp [upsert, hp]]
      simp only [List.map_cons, List.nodup_cons]
      refine ⟨?_, ih hnd.2⟩
      intro hc
      rcases mem_keys_upsert hc with hc | hc
      · exact hnd.1 hc
      · exact hp hc

theorem eraseKey_keys_nodup {m : List (String × V)} (k : String)
    (hnd : (m.map Prod.fst).Nodup) : ((eraseKey m k).map Prod.fst).Nodup :=
  ((List.filter_sublist m).map Prod.fst).nodup hnd

theorem mem_upsert {m : List (String × V)} {k : String} {v : V} :
    ∀ {p : String × V}, p ∈ upsert m k v → p ∈ m ∨ p = (k, v) := by
  induction m with
  | nil => intro p h; right; simpa [upsert] using h
  | cons q t ih =>
    intro p h
    obtain ⟨k₀, v₀⟩ := q
    by_cases hp : k₀ = k
    · rw [show upsert ((k₀, v₀) :: t) k v = (k, v) :: t from by simp [upsert, hp]] at h
      rcases List.mem_cons.mp h with rfl | h
      · right; rfl
      · left; exact List.mem_cons_of_mem _ h
    · rw [show upsert ((k₀, v₀) :: t) k v = (k₀, v₀) :: upsert t k v from by
        simp [upsert, hp]] at h
      rcases List.mem_cons.mp h with rfl | h
      · left; exact List.mem_cons_self _ _
      · rcases ih h with h | h
        · left; exact List.mem_cons_of_mem _ h
        · right; exact h

theorem mem_toAddL {csv okta : List (String × Row)} {p : String × Row} :
    p ∈ toAddL csv okta ↔ p ∈ csv ∧ alookup okta p.1 = none := by
  simp [toAddL, List.mem_filter, Option.isNone_iff_eq_none]

theorem mem_toUpdateL {csv okta : List (String × Row)} {e : UpdateEntry} :
    e ∈ toUpdateL csv okta ↔
      (e.key, e.record) ∈ csv ∧ alookup okta e.key = some e.current := by
  constructor
  · intro h
    rcases List.mem_filterMap.mp h with ⟨p, hp, hpe⟩
    rcases Option.map_eq_some'.mp hpe with ⟨cur, hcur, hee⟩
    subst hee
    exact ⟨hp, hcur⟩
  · intro ⟨h1, h2⟩
    refine List.mem_filterMap.mpr ⟨(e.key, e.record), h1, ?_⟩
    rw [h2]
    rfl

theorem mem_toRemoveL {csv okta : List (String × Row)} {p : String × Row} :
    p ∈ toRemoveL csv okta ↔ p ∈ okta ∧ alookup csv p.1 = none := by
  simp [toRemoveL, List.mem_filter, Option.isNone_iff_eq_none]

theorem mem_keys_iff_alookup {m : List (String × V)} {k : String} :
    k ∈ m.map Prod.fst ↔ ¬ alookup m k = none := by
  rw [alookup_eq_none_iff, not_not]

/-- Claim C2 — ChangeSet partition completeness: for every desired-state
map and remote-state map, the key sets of the computed `toAdd`, `toUpdate`
and `toRemove` lists are pairwise disjoint, and their union equals the
union of the desired keys and the remote keys. -/
theorem changeSet_partition (csv okta : List (String × Row)) :
    (∀ k, ¬(k ∈ (computeChangeSet csv okta).toAdd.map Prod.fst ∧
           k ∈ (computeChangeSet csv okta).toUpdate.map UpdateEntry.key)) ∧
    (∀ k, ¬(k ∈ (computeChangeSet csv okta).toAdd.map Prod.fst ∧
           k ∈ (computeChangeSet csv okta).toRemove.map Prod.fst)) ∧
    (∀ k, ¬(k ∈ (computeChangeSet csv okta).toUpdate.map UpdateEntry.key ∧
           k ∈ (computeChangeSet csv okta).toRemove.map Prod.fst)) ∧
    (∀ k, (k ∈ (computeChangeSet csv okta).toAdd.map Prod.fst ∨
           k ∈ (computeChangeSet csv okta).toUpdate.map UpdateEntry.key ∨
           k ∈ (computeChangeSet csv okta).toRemove.map Prod.fst) ↔
          (k ∈ csv.map Prod.fst ∨ k ∈ okta.map Prod.fst)) := by
  have hadd : ∀ k, k ∈ (computeChangeSet csv okta).toAdd.map Prod.fst ↔
      (k ∈ csv.map Prod.fst ∧ alookup okta k = none) := by
    intro k
    constructor
    · intro h
      rcases List.mem_map.mp h with ⟨p, hp, rfl⟩
      exact ⟨List.mem_map_of_mem _ (mem_toAddL.mp hp).1, (mem_toAddL.mp hp).2⟩
    · intro ⟨h1, h2⟩
      rcases List.mem_map.mp h1 with ⟨p, hp, rfl⟩
      exact List.mem_map_of_mem _ (mem_toAddL.mpr ⟨hp, h2⟩)
  have hupd : ∀ k, k ∈ (computeChangeSet csv okta).toUpdate.map UpdateEntry.key ↔
      (k ∈ csv.map Prod.fst ∧ ¬ alookup okta k = none) := by
    intro k
    constructor
    · intro h
      rcases List.mem_map.mp h with ⟨e, he, rfl⟩
      rcases mem_toUpdateL.mp he with ⟨h1, h2⟩
      exact ⟨List.mem_map_of_mem _ h1, by rw [h2]; exact fun hc => Option.noConfusion hc⟩
    · intro ⟨h1, h2⟩
      rcases List.mem_map.mp h1 with ⟨p, hp, rfl⟩
      rcases Option.ne_none_iff_exists'.mp h2 with ⟨cur, hcur⟩
      have : (⟨p.1, p.2, cur⟩ : UpdateEntry) ∈ toUpdateL csv okta :=
        mem_toUpdateL.mpr ⟨hp, hcur⟩
      exact List.mem_map_of_mem _ this
  have hrem : ∀ k, k ∈ (computeChangeSet csv okta).toRemove.map Prod.fst ↔
      (k ∈ okta.map Prod.fst ∧ alookup csv k = none) := by
    intro k
    constructor
    · intro h
      rcases List.mem_map.mp h with ⟨p, hp, rfl⟩
      exact ⟨List.mem_map_of_mem _ (mem_toRemoveL.mp hp).1, (mem_toRemoveL.mp hp).2⟩
    · intro ⟨h1, h2⟩
      rcases List.mem_map.mp h1 with ⟨p, hp, rfl⟩
      exact List.mem_map_of_mem _ (mem_toRemoveL.mpr ⟨hp, h2⟩)
  refine ⟨?_, ?_, ?_, ?_⟩
  · intro k ⟨h1, h2⟩
    exact ((hupd k).mp h2).2 ((hadd k).mp h1).2
  · intro k ⟨h1, h2⟩
    exact (alookup_eq_none_iff csv k).mp ((hrem k).mp h2).2 ((hadd k).mp h1).1
  · intro k ⟨h1, h2⟩
    exact (alookup_eq_none_iff csv k).mp ((hrem k).mp h2).2 ((hupd k).mp h1).1
  · intro k
    constructor
    · intro h
      rcases h with h | h | h
      · exact Or.inl ((hadd k).mp h).1
      · exact Or.inl ((hupd k).mp h).1
      · exact Or.inr ((hrem k).mp h).1
    · intro h
      by_cases hcsv : k ∈ csv.map Prod.fst
      · by_cases hok : alookup okta k = none
        · exact Or.inl ((hadd k).mpr ⟨hcsv, hok⟩)
        · exact Or.inr (Or.inl ((hupd k).mpr ⟨hcsv, hok⟩))
      · rcases h with h | h
        · exact absurd h hcsv
        · exact Or.inr (Or.inr ((hrem k).mpr
            ⟨h, (alookup_eq_none_iff csv k).mpr hcsv⟩))

/-- Claim C3 — No-op update skip: if every column value of the desired row
equals the remote entity's stored attribute under exact string comparison,
the update phase detects zero changed fields, issues no update write, and
leaves the remote state untouched; conversely an update write happens only
when some truthy field of the row differs from the stored attribute. -/
theorem noop_update_skip (record current : Row) :
    ((∀ kv ∈ record, alookup current kv.1 = some kv.2) →
        changedFields record current = [] ∧
        (∀ m k, applyUpdateStep m ⟨k, record, current⟩ = m)) ∧
    (¬ changedFields record current = [] →
        ∃ kv ∈ record, kv.2 ≠ "" ∧ ¬ alookup current kv.1 = some kv.2) := by
  constructor
  · intro h
    have hnil : changedFields record current = [] := by
      rw [changedFields, List.map_eq_nil_iff, List.filter_eq_nil_iff]
      intro kv hkv
      have hmem : kv ∈ record := List.mem_of_mem_filter hkv
      simp [h kv hmem]
    exact ⟨hnil, fun m k => by simp [applyUpdateStep, hnil]⟩
  · intro h
    rw [changedFields, List.map_eq_nil_iff, List.filter_eq_nil_iff] at h
    push_neg at h
    rcases h with ⟨kv, hkv, hne⟩
    refine ⟨kv, List.mem_of_mem_filter hkv, ?_, ?_⟩
    · have := (List.mem_filter.mp hkv).2
      simpa [buildProfile] using this
    · simpa using hne

/-- Witness for `noop_update_skip` at a concrete row and matching remote
profile. -/
theorem noop_update_skip_witness :
    changedFields [("dept", "sales")] [("dept", "sales")] = [] :=
  (((noop_update_skip [("dept", "sales")] [("dept", "sales")]).1)
    (by decide)).1

/-- Claim C4 — Apply order: the trace of one reconciliation pass splits
into a prefix consisting entirely of removal operations followed by a
suffix containing no removal at all: removals are fully applied before any
addition or update begins. -/
theorem apply_order (rows : List Row) (remote : List (String × Row)) :
    ∃ n, (∀ op ∈ (syncPass rows remote).trace.take n, op.isRemove = true) ∧
         (∀ op ∈ (syncPass rows remote).trace.drop n, op.isRemove = false) := by
  refine ⟨(syncPass rows remote).changes.toRemove.length, ?_, ?_⟩
  · intro op hop
    have : (syncPass rows remote).trace.take
        ((syncPass rows remote).changes.toRemove.length) =
        (syncPass rows remote).changes.toRemove.map (fun p => SyncOp.remove p.1) := by
      have hl : ((syncPass rows remote).changes.toRemove.map
          (fun p => SyncOp.remove p.1)).length =
          (syncPass rows remote).changes.toRemove.length := List.length_map _ _
      rw [show (syncPass rows remote).trace =
        (syncPass rows remote).changes.toRemove.map (fun p => SyncOp.remove p.1)
          ++ ((syncPass rows remote).changes.toAdd.map (fun p => SyncOp.add p.1)
          ++ ((syncPass rows remote).changes.toUpdate.filter
              (fun e => !(decide (changedFields e.record e.current = [])))).map
              (fun e => SyncOp.update e.key)) from by
        simp [syncPass, syncCore]]
      rw [← hl, List.take_left]
    rw [this] at hop
    rcases List.mem_map.mp hop with ⟨p, _, rfl⟩
    rfl
  · intro op hop
    have : (syncPass rows remote).trace.drop
        ((syncPass rows remote).changes.toRemove.length) =
        (syncPass rows remote).changes.toAdd.map (fun p => SyncOp.add p.1)
          ++ ((syncPass rows remote).changes.toUpdate.filter
              (fun e => !(decide (changedFields e.record e.current = [])))).map
              (fun e => SyncOp.update e.key) := by
      have hl : ((syncPass rows remote).changes.toRemove.map
          (fun p => SyncOp.remove p.1)).length =
          (syncPass rows remote).changes.toRemove.length := List.length_map _ _
      rw [show (syncPass rows remote).trace =
        (syncPass rows remote).changes.toRemove.map (fun p => SyncOp.remove p.1)
          ++ ((syncPass rows remote).changes.toAdd.map (fun p => SyncOp.add p.1)
          ++ ((syncPass rows remote).changes.toUpdate.filter
              (fun e => !(decide (changedFields e.record e.current = [])))).map
              (fun e => SyncOp.update e.key)) from by
        simp [syncPass, syncCore]]
      rw [← hl, List.drop_left]
    rw [this] at hop
    rcases List.mem_append.mp hop with h | h
    · rcases List.mem_map.mp h with ⟨p, _, rfl⟩
      rfl
    · rcases List.mem_map.mp h with ⟨e, _, rfl⟩
      rfl

theorem alookup_applyRemovals (rs : List (String × Row)) :
    ∀ (m : List (String × Row)) (k : String),
      alookup (applyRemovals m rs) k =
        if k ∈ rs.map Prod.fst then none else alookup m k := by
  induction rs with
  | nil => intro m k; simp [applyRemovals]
  | cons p t ih =>
    intro m k
    have hstep : applyRemovals m (p :: t) = applyRemovals (eraseKey m p.1) t := rfl
    rw [hstep, ih]
    by_cases hk : k ∈ t.map Prod.fst
    · simp [hk]
    · by_cases hp : p.1 = k
      · simp [hk, hp, alookup_eraseKey]
      · have hnot : ¬ k ∈ (p :: t).map Prod.fst := by
          simp only [List.map_cons, List.mem_cons]
          exact fun hc => hc.elim (fun h => hp h.symm) hk
        have hp' : ¬ k = p.1 := fun hc => hp hc.symm
        simp [hk, hnot, alookup_eraseKey, hp, hp']

theorem alookup_applyAdds_notmem (as : List (String × Row)) :
    ∀ (m : List (String × Row)) (k : String), k ∉ as.map Prod.fst →
      alookup (applyAdds m as) k = alookup m k := by
  induction as with
  | nil => intro m k _; rfl
  | cons p t ih =>
    intro m k hk
    simp only [List.map_cons, List.mem_cons, not_or] at hk
    have hstep : applyAdds m (p :: t) =
        applyAdds (upsert m p.1 (buildProfile p.2)) t := rfl
    rw [hstep, ih _ _ hk.2, alookup_upsert, if_neg (fun hc => hk.1 hc.symm)]

theorem alookup_applyAdds_mem (as : List (String × Row)) :
    ∀ (m : List (String × Row)) (p : String × Row),
      (as.map Prod.fst).Nodup → p ∈ as →
        alookup (applyAdds m as) p.1 = some (buildProfile p.2) := by
  induction as with
  | nil => intro m p _ hp; simp at hp
  | cons q t ih =>
    intro m p hnd hp
    simp only [List.map_cons, List.nodup_cons] at hnd
    have hstep : applyAdds m (q :: t) =
        applyAdds (upsert m q.1 (buildProfile q.2)) t := rfl
    rcases List.mem_cons.mp hp with rfl | hp
    · rw [hstep, alookup_applyAdds_notmem t _ _ hnd.1, alookup_upsert, if_pos rfl]
    · exact hstep ▸ ih _ _ hnd.2 hp

theorem alookup_applyUpdates_notmem (us : List UpdateEntry) :
    ∀ (m : List (String × Row)) (k : String), k ∉ us.map UpdateEntry.key →
      alookup (applyUpdates m us) k = alookup m k := by
  induction us with
  | nil => intro m k _; rfl
  | cons e t ih =>
    intro m k hk
    simp only [List.map_cons, List.mem_cons, not_or] at hk
    have hstep : applyUpdates m (e :: t) = applyUpdates (applyUpdateStep m e) t := rfl
    rw [hstep, ih _ _ hk.2]
    unfold applyUpdateStep
    by_cases hch : changedFields e.record e.current = []
    · rw [if_pos hch]
    · rw [if_neg hch, alookup_upsert, if_neg (fun hc => hk.1 hc.symm)]

theorem alookup_applyUpdates_mem (us : List UpdateEntry) :
    ∀ (m : List (String × Row)) (e : UpdateEntry),
      (us.map UpdateEntry.key).Nodup → e ∈ us →
        alookup (applyUpdates m us) e.key =
          if changedFields e.record e.current = [] then alookup m e.key
          else some (buildProfile e.record) := by
  induction us with
  | nil => intro m e _ he; simp at he
  | cons f t ih =>
    intro m e hnd he
    simp only [List.map_cons, List.nodup_cons] at hnd
    have hstep : applyUpdates m (f :: t) = applyUpdates (applyUpdateStep m f) t := rfl
    rcases List.mem_cons.mp he with rfl | he
    · rw [hstep, alookup_applyUpdates_notmem t _ _ hnd.1]
      unfold applyUpdateStep
      by_cases hch : changedFields e.record e.current = []
      · rw [if_pos hch, if_pos hch]
      · rw [if_neg hch, if_neg hch, alookup_upsert, if_pos rfl]
    · have hne : f.key ≠ e.key := fun hc => hnd.1 (hc ▸ List.mem_map_of_mem _ he)
      have hstepk : alookup (applyUpdateStep m f) e.key = alookup m e.key := by
        unfold applyUpdateStep
        by_cases hch : changedFields f.record f.current = []
        · rw [if_pos hch]
        · rw [if_neg hch, alookup_upsert, if_neg hne]
      rw [hstep, ih _ _ hnd.2 he, hstepk]

theorem applyRemovals_keys_nodup (rs : List (String × Row)) :
    ∀ {m : List (String × Row)}, (m.map Prod.fst).Nodup →
      ((applyRemovals m rs).map Prod.fst).Nodup := by
  induction rs with
  | nil => intro m h; exact h
  | cons p t ih => intro m h; exact ih (eraseKey_keys_nodup p.1 h)

theorem applyAdds_keys_nodup (as : List (String × Row)) :
    ∀ {m : List (String × Row)}, (m.map Prod.fst).Nodup →
      ((applyAdds m as).map Prod.fst).Nodup := by
  induction as with
  | nil => intro m h; exact h
  | cons p t ih => intro m h; exact ih (upsert_keys_nodup h)

theorem applyUpdates_keys_nodup (us : List UpdateEntry) :
    ∀ {m : List (String × Row)}, (m.map Prod.fst).Nodup →
      ((applyUpdates m us).map Prod.fst).Nodup := by
  induction us with
  | nil => intro m h; exact h
  | cons e t ih =>
    intro m h
    refine ih ?_
    unfold applyUpdateStep
    by_cases hch : changedFields e.record e.current = []
    · rw [if_pos hch]; exact h
    · rw [if_neg hch]; exact upsert_keys_nodup h

theorem buildCsvUsers_keys_nodup (rows : List Row) :
    ((buildCsvUsers rows).map Prod.fst).Nodup := by
  suffices h : ∀ (acc : List (String × Row)), (acc.map Prod.fst).Nodup →
      ((rows.foldl
        (fun m r =>
          match identityOf r with
          | some u => upsert m (lowerStr u) r
          | none => m) acc).map Prod.fst).Nodup by
    exact h [] (by simp)
  induction rows with
  | nil => intro acc h; exact h
  | cons r t ih =>
    intro acc h
    cases hid : identityOf r with
    | none => simpa [List.foldl_cons, hid] using ih acc h
    | some u => simpa [List.foldl_cons, hid] using ih _ (upsert_keys_nodup h)

theorem buildCsvUsers_mem_aux (rows : List Row) :
    ∀ (acc : List (String × Row)) (p : String × Row),
      p ∈ rows.foldl
        (fun m r =>
          match identityOf r with
          | some u => upsert m (lowerStr u) r
          | none => m) acc → p ∈ acc ∨ p.2 ∈ rows := by
  induction rows with
  | nil => intro acc p hacc; exact Or.inl hacc
  | cons r t ih =>
    intro acc p hacc
    cases hid : identityOf r with
    | none =>
      rw [List.foldl_cons, hid] at hacc
      rcases ih acc p hacc with hc | hc
      · exact Or.inl hc
      · exact Or.inr (List.mem_cons_of_mem _ hc)
    | some u =>
      rw [List.foldl_cons, hid] at hacc
      rcases ih _ p hacc with hc | hc
      · rcases mem_upsert hc with hc | hc
        · exact Or.inl hc
        · right
          rw [hc]
          exact List.mem_cons_self _ _
      · exact Or.inr (List.mem_cons_of_mem _ hc)

theorem buildCsvUsers_mem {rows : List Row} {p : String × Row}
    (h : p ∈ buildCsvUsers rows) : p.2 ∈ rows := by
  rcases buildCsvUsers_mem_aux rows [] p h with hc | hc
  · simp at hc
  · exact hc

theorem toAddL_keys_sublist (csv okta : List (String × Row)) :
    List.Sublist ((toAddL csv okta).map Prod.fst) (csv.map Prod.fst) :=
  (List.filter_sublist csv).map Prod.fst

theorem toUpdateL_keys_sublist (csv okta : List (String × Row)) :
    List.Sublist ((toUpdateL csv okta).map UpdateEntry.key) (csv.map Prod.fst) := by
  induction csv with
  | nil => exact List.Sublist.refl _
  | cons p t ih =>
    cases hp : alookup okta p.1 with
    | none =>
      have : toUpdateL (p :: t) okta = toUpdateL t okta := by
        simp [toUpdateL, List.filterMap_cons, hp]
      rw [this, List.map_cons]
      exact ih.cons _
    | some cur =>
      have : toUpdateL (p :: t) okta = ⟨p.1, p.2, cur⟩ :: toUpdateL t okta := by
        simp [toUpdateL, List.filterMap_cons, hp]
      rw [this, List.map_cons, List.map_cons]
      exact ih.cons₂ _

theorem alookup_buildProfile {r : Row} {k v : String}
    (hnd : (r.map Prod.fst).Nodup) (hmem : (k, v) ∈ r) (hv : v ≠ "") :
    alookup (buildProfile r) k = some v := by
  have hsub : ((buildProfile r).map Prod.fst).Nodup :=
    ((List.filter_sublist r).map Prod.fst).nodup hnd
  refine mem_alookup hsub ?_
  exact List.mem_filter.mpr ⟨hmem, by simpa using hv⟩

theorem changedFields_self {r : Row} (hnd : (r.map Prod.fst).Nodup) :
    changedFields r (buildProfile r) = [] := by
  rw [changedFields, List.map_eq_nil_iff, List.filter_eq_nil_iff]
  intro kv hkv
  have hmem : kv ∈ r := List.mem_of_mem_filter hkv
  have hv : kv.2 ≠ "" := by
    have := (List.mem_filter.mp hkv).2
    simpa [buildProfile] using this
  simp [alookup_buildProfile hnd hmem hv]

/-- After a successful pass, every desired entry's key resolves in the
resulting remote state to a profile against which the same record shows
zero changed fields. -/
theorem remoteAfter_matches (rows : List Row) (remote : List (String × Row))
    (hrows : ∀ r ∈ rows, (r.map Prod.fst).Nodup)
    {k : String} {r : Row} (hmem : (k, r) ∈ buildCsvUsers rows) :
    ∃ p, alookup (syncPass rows remote).remoteAfter k = some p ∧
      changedFields r p = [] := by
  have hcsvnd := buildCsvUsers_keys_nodup rows
  have hrnd : (r.map Prod.fst).Nodup := hrows r (buildCsvUsers_mem hmem)
  have hAnd : ((toAddL (buildCsvUsers rows) remote).map Prod.fst).Nodup :=
    (toAddL_keys_sublist _ _).nodup hcsvnd
  have hUnd : ((toUpdateL (buildCsvUsers rows) remote).map UpdateEntry.key).Nodup :=
    (toUpdateL_keys_sublist _ _).nodup hcsvnd
  have hcsvk : alookup (buildCsvUsers rows) k = some r := mem_alookup hcsvnd hmem
  have hra : (syncPass rows remote).remoteAfter =
      applyUpdates
        (applyAdds (applyRemovals remote (toRemoveL (buildCsvUsers rows) remote))
          (toAddL (buildCsvUsers rows) remote))
        (toUpdateL (buildCsvUsers rows) remote) := rfl
  have hkR : k ∉ (toRemoveL (buildCsvUsers rows) remote).map Prod.fst := by
    intro hc
    rcases List.mem_map.mp hc with ⟨q, hq, rfl⟩
    rw [(mem_toRemoveL.mp hq).2] at hcsvk
    exact Option.noConfusion hcsvk
  cases hok : alookup remote k with
  | none =>
    have hA : (k, r) ∈ toAddL (buildCsvUsers rows) remote :=
      mem_toAddL.mpr ⟨hmem, hok⟩
    have hkU : k ∉ (toUpdateL (buildCsvUsers rows) remote).map UpdateEntry.key := by
      intro hc
      rcases List.mem_map.mp hc with ⟨e, he, hek⟩
      have := (mem_toUpdateL.mp he).2
      rw [hek, hok] at this
      exact Option.noConfusion this
    refine ⟨buildProfile r, ?_, changedFields_self hrnd⟩
    rw [hra, alookup_applyUpdates_notmem _ _ _ hkU]
    exact alookup_applyAdds_mem _ _ (k, r) hAnd hA
  | some cur =>
    have hU : (⟨k, r, cur⟩ : UpdateEntry) ∈ toUpdateL (buildCsvUsers rows) remote :=
      mem_toUpdateL.mpr ⟨hmem, hok⟩
    have hkA : k ∉ (toAddL (buildCsvUsers rows) remote).map Prod.fst := by
      intro hc
      rcases List.mem_map.mp hc with ⟨q, hq, rfl⟩
      rw [(mem_toAddL.mp hq).2] at hok
      exact Option.noConfusion hok
    have hbase : alookup
        (applyAdds (applyRemovals remote (toRemoveL (buildCsvUsers rows) remote))
          (toAddL (buildCsvUsers rows) remote)) k = some cur := by
      rw [alookup_applyAdds_notmem _ _ _ hkA, alookup_applyRemovals,
        if_neg hkR, hok]
    by_cases hch : changedFields r cur = []
    · refine ⟨cur, ?_, hch⟩
      rw [hra, alookup_applyUpdates_mem _ _ ⟨k, r, cur⟩ hUnd hU]
      simpa [hch] using hbase
    · refine ⟨buildProfile r, ?_, changedFields_self hrnd⟩
      rw [hra, alookup_applyUpdates_mem _ _ ⟨k, r, cur⟩ hUnd hU]
      simp [hch]

/-- Keys surviving in the remote state after a pass all belong to the
desired-state map. -/
theorem remoteAfter_keys_desired (rows : List Row) (remote : List (String × Row))
    (hremote : (remote.map Prod.fst).Nodup)
    {q : String × Row} (hq : q ∈ (syncPass rows remote).remoteAfter) :
    ¬ alookup (buildCsvUsers rows) q.1 = none := by
  intro hnone
  have hra : (syncPass rows remote).remoteAfter =
      applyUpdates
        (applyAdds (applyRemovals remote (toRemoveL (buildCsvUsers rows) remote))
          (toAddL (buildCsvUsers rows) remote))
        (toUpdateL (buildCsvUsers rows) remote) := rfl
  have hrand : (((syncPass rows remote).remoteAfter).map Prod.fst).Nodup := by
    rw [hra]
    exact applyUpdates_keys_nodup _ (applyAdds_keys_nodup _
      (applyRemovals_keys_nodup _ hremote))
  have hlook : alookup (syncPass rows remote).remoteAfter q.1 = some q.2 :=
    mem_alookup hrand hq
  have hkA : q.1 ∉ (toAddL (buildCsvUsers rows) remote).map Prod.fst := by
    intro hc
    rcases List.mem_map.mp hc with ⟨p, hp, hpq⟩
    have := List.mem_map_of_mem Prod.fst (mem_toAddL.mp hp).1
    rw [hpq] at this
    exact (alookup_eq_none_iff _ _).mp hnone this
  have hkU : q.1 ∉ (toUpdateL (buildCsvUsers rows) remote).map UpdateEntry.key := by
    intro hc
    rcases List.mem_map.mp hc with ⟨e, he, hek⟩
    have := List.mem_map_of_mem Prod.fst (mem_toUpdateL.mp he).1
    rw [hek] at this
    exact (alookup_eq_none_iff _ _).mp hnone this
  rw [hra, alookup_applyUpdates_notmem _ _ _ hkU,
    alookup_applyAdds_notmem _ _ _ hkA, alookup_applyRemovals] at hlook
  by_cases hmemR : q.1 ∈ (toRemoveL (buildCsvUsers rows) remote).map Prod.fst
  · rw [if_pos hmemR] at hlook
    exact Option.noConfusion hlook
  · rw [if_neg hmemR] at hlook
    have hrm : (q.1, q.2) ∈ remote := alookup_mem hlook
    have : (q.1, q.2) ∈ toRemoveL (buildCsvUsers rows) remote :=
      mem_toRemoveL.mpr ⟨hrm, hnone⟩
    exact hmemR (List.mem_map_of_mem Prod.fst this)

/-- Claim C1 (amended) — Second-pass convergence: after one successful
pass, a second pass over the same desired rows against the resulting
remote state computes an empty `toAdd`, an empty `toRemove`, and applies
no operation at all (its trace is empty: in particular every `toUpdate`
entry of the second pass has zero changed fields, so no update write is
issued). The literal claim — all three lists empty — fails because the
source pushes every key present on both sides to `toUpdate` and defers
field diffing to the apply phase; see the counterexample. -/
theorem sync_second_pass_empty (rows : List Row) (remote : List (String × Row))
    (hrows : ∀ r ∈ rows, (r.map Prod.fst).Nodup)
    (hremote : (remote.map Prod.fst).Nodup) :
    (syncPass rows (syncPass rows remote).remoteAfter).changes.toAdd = [] ∧
    (syncPass rows (syncPass rows remote).remoteAfter).changes.toRemove = [] ∧
    (syncPass rows (syncPass rows remote).remoteAfter).trace = [] := by
  have hadd : toAddL (buildCsvUsers rows) (syncPass rows remote).remoteAfter = [] := by
    rw [toAddL, List.filter_eq_nil_iff]
    intro p hp
    rcases remoteAfter_matches rows remote hrows
      (show (p.1, p.2) ∈ buildCsvUsers rows from hp) with ⟨q, hq, _⟩
    simp [hq]
  have hrem : toRemoveL (buildCsvUsers rows) (syncPass rows remote).remoteAfter = [] := by
    rw [toRemoveL, List.filter_eq_nil_iff]
    intro q hq
    have := remoteAfter_keys_desired rows remote hremote hq
    simpa [Option.isNone_iff_eq_none] using this
  have hupd : (toUpdateL (buildCsvUsers rows) (syncPass rows remote).remoteAfter).filter
      (fun e => !(decide (changedFields e.record e.current = []))) = [] := by
    rw [List.filter_eq_nil_iff]
    intro e he
    rcases mem_toUpdateL.mp he with ⟨hmem, hcur⟩
    rcases remoteAfter_matches rows remote hrows hmem with ⟨q, hq, hch⟩
    rw [hcur] at hq
    have hcq : e.current = q := Option.some.inj hq
    simp [hcq, hch]
  refine ⟨hadd, hrem, ?_⟩
  have htr : (syncPass rows (syncPass rows remote).remoteAfter).trace =
      (toRemoveL (buildCsvUsers rows) (syncPass rows remote).remoteAfter).map
        (fun p => SyncOp.remove p.1)
      ++ (toAddL (buildCsvUsers rows) (syncPass rows remote).remoteAfter).map
        (fun p => SyncOp.add p.1)
      ++ ((toUpdateL (buildCsvUsers rows) (syncPass rows remote).remoteAfter).filter
          (fun e => !(decide (changedFields e.record e.current = [])))).map
        (fun e => SyncOp.update e.key) := rfl
  rw [htr, hadd, hrem, hupd]
  rfl

/-- Witness for `sync_second_pass_empty` on a concrete CSV and an initially
non-empty remote state. -/
theorem sync_second_pass_empty_witness :
    (∀ r ∈ [[("username", "a@x.com"), ("dept", "sales")],
            [("login", "b@x.com"), ("dept", "ops")]], (r.map Prod.fst).Nodup) ∧
    (([("c@x.com", [("dept", "hr")])].map Prod.fst).Nodup) ∧
    ((syncPass [[("username", "a@x.com"), ("dept", "sales")],
                [("login", "b@x.com"), ("dept", "ops")]]
        (syncPass [[("username", "a@x.com"), ("dept", "sales")],
                   [("login", "b@x.com"), ("dept", "ops")]]
          [("c@x.com", [("dept", "hr")])]).remoteAfter).changes.toAdd = [] ∧
     (syncPass [[("username", "a@x.com"), ("dept", "sales")],
                [("login", "b@x.com"), ("dept", "ops")]]
        (syncPass [[("username", "a@x.com"), ("dept", "sales")],
                   [("login", "b@x.com"), ("dept", "ops")]]
          [("c@x.com", [("dept", "hr")])]).remoteAfter).changes.toRemove = [] ∧
     (syncPass [[("username", "a@x.com"), ("dept", "sales")],
                [("login", "b@x.com"), ("dept", "ops")]]
        (syncPass [[("username", "a@x.com"), ("dept", "sales")],
                   [("login", "b@x.com"), ("dept", "ops")]]
          [("c@x.com", [("dept", "hr")])]).remoteAfter).trace = []) :=
  ⟨by decide, by decide,
    sync_second_pass_empty
      [[("username", "a@x.com"), ("dept", "sales")],
       [("login", "b@x.com"), ("dept", "ops")]]
      [("c@x.com", [("dept", "hr")])] (by decide) (by decide)⟩

/-- Counterexample to the literal Claim C1: with a single desired row that
already exists remotely after the first pass, the second pass's `toUpdate`
list is not empty (the source classifies every key present on both sides
as `toUpdate` before diffing fields), so the second-pass ChangeSet is not
empty in all three components. -/
theorem sync_second_pass_toUpdate_ne :
    ¬ (syncPass [[("username", "a@x.com")]]
        (syncPass [[("username", "a@x.com")]] []).remoteAfter).changes.toUpdate = [] := by
  decide

theorem buildCsvUsers_filter_keyless (rows : List Row) :
    buildCsvUsers rows =
      buildCsvUsers (rows.filter (fun r => (identityOf r).isSome)) := by
  suffices h : ∀ (acc : List (String × Row)),
      rows.foldl
        (fun m r =>
          match identityOf r with
          | some u => upsert m (lowerStr u) r
          | none => m) acc =
      (rows.filter (fun r => (identityOf r).isSome)).foldl
        (fun m r =>
          match identityOf r with
          | some u => upsert m (lowerStr u) r
          | none => m) acc from h []
  induction rows with
  | nil => intro acc; rfl
  | cons r t ih =>
    intro acc
    cases hid : identityOf r with
    | none => simp [List.foldl_cons, List.filter_cons, hid, ih acc]
    | some u => simp [List.foldl_cons, List.filter_cons, hid, ih]

/-- Claim C5 (amended) — Keyless-row exclusion: rows in which no candidate
identity column has a truthy value contribute nothing to the sync pass
(its ChangeSet, trace, final state and summary are the same as if those
rows did not exist, so the pass never aborts); in the `processUsers`
provisioning loop every such row is reported as a skip and counted in
`failed`, while all other rows are still processed in order. In the
`syncUsers` differ itself the exclusion is silent — nothing reports it;
see the counterexample. -/
theorem keyless_rows_excluded (rows : List Row) (remote : List (String × Row)) :
    syncPass rows remote =
      syncPass (rows.filter (fun r => (identityOf r).isSome)) remote ∧
    (processUsersModel rows).failed =
      (rows.filter (fun r => (identityOf r).isNone)).length ∧
    (processUsersModel rows).processed = rows.filterMap identityOf := by
  refine ⟨?_, ?_, ?_⟩
  · rw [syncPass, syncPass, buildCsvUsers_filter_keyless]
  · suffices h : ∀ acc : ProcessResult,
        (rows.foldl
          (fun acc r =>
            match identityOf r with
            | none => { acc with failed := acc.failed + 1 }
            | some u => { acc with processed := acc.processed ++ [u] }) acc).failed =
        acc.failed + (rows.filter (fun r => (identityOf r).isNone)).length by
      simpa [processUsersModel] using h ⟨0, []⟩
    induction rows with
    | nil => intro acc; simp
    | cons r t ih =>
      intro acc
      cases hid : identityOf r with
      | none => simp [List.foldl_cons, List.filter_cons, hid, ih]; omega
      | some u => simp [List.foldl_cons, List.filter_cons, hid, ih]
  · suffices h : ∀ acc : ProcessResult,
        (rows.foldl
          (fun acc r =>
            match identityOf r with
            | none => { acc with failed := acc.failed + 1 }
            | some u => { acc with processed := acc.processed ++ [u] }) acc).processed =
        acc.processed ++ rows.filterMap identityOf by
      simpa [processUsersModel] using h ⟨0, []⟩
    induction rows with
    | nil => intro acc; simp
    | cons r t ih =>
      intro acc
      cases hid : identityOf r with
      | none => simp [List.foldl_cons, List.filterMap_cons, hid, ih]
      | some u => simp [List.foldl_cons, List.filterMap_cons, hid, ih]

/-- Counterexample to the literal Claim C5: a desired row with no identity
candidate column is excluded from the ChangeSet, but the sync pass's
entire observable outcome — ChangeSet, trace, resulting remote state and
every summary count, including `failed` and the CSV total — is identical
to the outcome on an empty CSV: the exclusion is not reported as a
skip/failure anywhere in the differ. -/
theorem keyless_row_not_reported :
    syncPass [[("name", "Ada"), ("dept", "sales")]] [] = syncPass [] [] ∧
    (syncPass [[("name", "Ada"), ("dept", "sales")]] []).changes.toAdd = [] ∧
    (syncPass [[("name", "Ada"), ("dept", "sales")]] []).changes.toUpdate = [] ∧
    (syncPass [[("name", "Ada"), ("dept", "sales")]] []).changes.toRemove = [] := by
  decide

theorem buildCsvUsers_last_aux (k : String) :
    ∀ (rows : List Row) (acc : List (String × Row)),
      alookup (rows.foldl
        (fun m r =>
          match identityOf r with
          | some u => upsert m (lowerStr u) r
          | none => m) acc) k =
      ((rows.filter (fun r => decide (rowKey r = some k))).getLast?).elim
        (alookup acc k) some := by
  intro rows
  induction rows with
  | nil => intro acc; rfl
  | cons r t ih =>
    intro acc
    cases hid : identityOf r with
    | none =>
      have hpred : rowKey r = none := by simp [rowKey, hid]
      simp only [List.foldl_cons, hid, List.filter_cons, hpred]
      simpa using ih acc
    | some u =>
      by_cases hk : lowerStr u = k
      · have hpred : rowKey r = some k := by simp [rowKey, hid, hk]
        have hfil : (r :: t).filter (fun r => decide (rowKey r = some k)) =
            r :: t.filter (fun r => decide (rowKey r = some k)) := by
          simp [List.filter_cons, hpred]
        simp only [List.foldl_cons, hid]
        rw [hfil, ih (upsert acc (lowerStr u) r), List.getLast?_cons]
        cases hlast : (t.filter (fun r => decide (rowKey r = some k))).getLast? with
        | none => simp [hlast, alookup_upsert, hk]
        | some r' => simp [hlast]
      · have hpred : ¬ rowKey r = some k := by simp [rowKey, hid, hk]
        have hfil : (r :: t).filter (fun r => decide (rowKey r = some k)) =
            t.filter (fun r => decide (rowKey r = some k)) := by
          simp [List.filter_cons, hpred]
        simp only [List.foldl_cons, hid]
        rw [hfil, ih (upsert acc (lowerStr u) r), alookup_upsert, if_neg hk]

theorem filter_key_length_le_one {csv : List (String × Row)} (k : String)
    (hnd : (csv.map Prod.fst).Nodup) :
    (csv.filter (fun p => decide (p.1 = k))).length ≤ 1 := by
  induction csv with
  | nil => simp
  | cons p t ih =>
    simp only [List.map_cons, List.nodup_cons] at hnd
    by_cases hp : p.1 = k
    · rw [List.filter_cons, if_pos (by simpa using hp)]
      have : t.filter (fun p => decide (p.1 = k)) = [] := by
        rw [List.filter_eq_nil_iff]
        intro q hq hqk
        exact hnd.1 (hp ▸ (by simpa using hqk : q.1 = k) ▸
          List.mem_map_of_mem Prod.fst hq)
      simp [this]
    · rw [List.filter_cons, if_neg (by simpa using hp)]
      exact ih hnd.2

theorem add_update_key_count (okta : List (String × Row)) (k : String) :
    ∀ csv : List (String × Row),
      ((toAddL csv okta).filter (fun p => decide (p.1 = k))).length +
      ((toUpdateL csv okta).filter (fun e => decide (e.key = k))).length =
      (csv.filter (fun p => decide (p.1 = k))).length := by
  intro csv
  induction csv with
  | nil => rfl
  | cons p t ih =>
    cases hp : alookup okta p.1 with
    | none =>
      have h1 : toAddL (p :: t) okta = p :: toAddL t okta := by
        simp [toAddL, List.filter_cons, hp]
      have h2 : toUpdateL (p :: t) okta = toUpdateL t okta := by
        simp [toUpdateL, List.filterMap_cons, hp]
      rw [h1, h2]
      by_cases hk : p.1 = k
      · have hfA : (p :: toAddL t okta).filter (fun p => decide (p.1 = k)) =
            p :: (toAddL t okta).filter (fun p => decide (p.1 = k)) := by
          simp [List.filter_cons, hk]
        have hfC : (p :: t).filter (fun p => decide (p.1 = k)) =
            p :: t.filter (fun p => decide (p.1 = k)) := by
          simp [List.filter_cons, hk]
        rw [hfA, hfC, List.length_cons, List.length_cons]
        omega
      · have hfA : (p :: toAddL t okta).filter (fun p => decide (p.1 = k)) =
            (toAddL t okta).filter (fun p => decide (p.1 = k)) := by
          simp [List.filter_cons, hk]
        have hfC : (p :: t).filter (fun p => decide (p.1 = k)) =
            t.filter (fun p => decide (p.1 = k)) := by
          simp [List.filter_cons, hk]
        rw [hfA, hfC]
        exact ih
    | some cur =>
      have h1 : toAddL (p :: t) okta = toAddL t okta := by
        simp [toAddL, List.filter_cons, hp]
      have h2 : toUpdateL (p :: t) okta = ⟨p.1, p.2, cur⟩ :: toUpdateL t okta := by
        simp [toUpdateL, List.filterMap_cons, hp]
      rw [h1, h2]
      by_cases hk : p.1 = k
      · have hfU : ((⟨p.1, p.2, cur⟩ : UpdateEntry) :: toUpdateL t okta).filter
            (fun e => decide (e.key = k)) =
            (⟨p.1, p.2, cur⟩ : UpdateEntry) :: (toUpdateL t okta).filter
              (fun e => decide (e.key = k)) := by
          simp [List.filter_cons, hk]
        have hfC : (p :: t).filter (fun p => decide (p.1 = k)) =
            p :: t.filter (fun p => decide (p.1 = k)) := by
          simp [List.filter_cons, hk]
        rw [hfU, hfC, List.length_cons, List.length_cons]
        omega
      · have hfU : ((⟨p.1, p.2, cur⟩ : UpdateEntry) :: toUpdateL t okta).filter
            (fun e => decide (e.key = k)) =
            (toUpdateL t okta).filter (fun e => decide (e.key = k)) := by
          simp [List.filter_cons, hk]
        have hfC : (p :: t).filter (fun p => decide (p.1 = k)) =
            t.filter (fun p => decide (p.1 = k)) := by
          simp [List.filter_cons, hk]
        rw [hfU, hfC]
        exact ih

/-- Claim C10 — Duplicate identity keys collapse to the last row: the
desired-state map resolves every key to the last CSV row (in file order)
whose case-insensitive identity equals that key, and one pass performs at
most one add-or-update write for any key. -/
theorem duplicate_key_last_wins (rows : List Row) (remote : List (String × Row))
    (k : String) :
    alookup (buildCsvUsers rows) k =
      (rows.filter (fun r => decide (rowKey r = some k))).getLast? ∧
    ((syncPass rows remote).trace.filter
      (fun op => !op.isRemove && decide (op.key = k))).length ≤ 1 := by
  constructor
  · rw [show buildCsvUsers rows = rows.foldl
      (fun m r =>
        match identityOf r with
        | some u => upsert m (lowerStr u) r
        | none => m) [] from rfl]
    rw [buildCsvUsers_last_aux k rows []]
    cases (rows.filter (fun r => decide (rowKey r = some k))).getLast? with
    | none => rfl
    | some r => rfl
  · have htr : (syncPass rows remote).trace =
        (toRemoveL (buildCsvUsers rows) remote).map (fun p => SyncOp.remove p.1)
        ++ (toAddL (buildCsvUsers rows) remote).map (fun p => SyncOp.add p.1)
        ++ ((toUpdateL (buildCsvUsers rows) remote).filter
            (fun e => !(decide (changedFields e.record e.current = [])))).map
            (fun e => SyncOp.update e.key) := rfl
    rw [htr, List.filter_append, List.filter_append, List.length_append,
      List.length_append]
    have hR : (((toRemoveL (buildCsvUsers rows) remote).map
        (fun p => SyncOp.remove p.1)).filter
        (fun op => !op.isRemove && decide (op.key = k))).length = 0 := by
      rw [List.length_eq_zero, List.filter_eq_nil_iff]
      intro op hop
      rcases List.mem_map.mp hop with ⟨p, _, rfl⟩
      simp [SyncOp.isRemove]
    have hA : (((toAddL (buildCsvUsers rows) remote).map
        (fun p => SyncOp.add p.1)).filter
        (fun op => !op.isRemove && decide (op.key = k))).length =
        ((toAddL (buildCsvUsers rows) remote).filter
          (fun p => decide (p.1 = k))).length := by
      rw [List.filter_map, List.length_map]
      rfl
    have hU : (((toUpdateL (buildCsvUsers rows) remote).filter
          (fun e => !(decide (changedFields e.record e.current = [])))).map
          (fun e => SyncOp.update e.key)).filter
          (fun op => !op.isRemove && decide (op.key = k)) =
        (((toUpdateL (buildCsvUsers rows) remote).filter
          (fun e => !(decide (changedFields e.record e.current = [])))).filter
          (fun e => decide (e.key = k))).map (fun e => SyncOp.update e.key) := by
      rw [List.filter_map]
      rfl
    have hUle : ((((toUpdateL (buildCsvUsers rows) remote).filter
          (fun e => !(decide (changedFields e.record e.current = [])))).filter
          (fun e => decide (e.key = k)))).length ≤
        ((toUpdateL (buildCsvUsers rows) remote).filter
          (fun e => decide (e.key = k))).length := by
      exact ((List.filter_sublist _).filter _).length_le
    have hsum := add_update_key_count remote k (buildCsvUsers rows)
    have hone := filter_key_length_le_one k (buildCsvUsers_keys_nodup rows)
    rw [hR, hA, hU, List.length_map]
    omega

theorem leKey_trans (a b c : String × List String) :
    leKey a b = true → leKey b c = true → leKey a c = true :=
  strLe_trans a.1 b.1 c.1

theorem leKey_total (a b : String × List String) :
    leKey a b = true ∨ leKey b a = true :=
  strLe_total a.1 b.1

theorem eq_of_perm_of_key_sorted {l l' : List (String × List String)}
    (h : l.Perm l')
    (hs : l.Pairwise (fun p q => leKey p q = true))
    (hs' : l'.Pairwise (fun p q => leKey p q = true))
    (hnd : (l.map Prod.fst).Nodup) : l = l' := by
  have hnd' : (l'.map Prod.fst).Nodup := ((h.map Prod.fst).nodup_iff).mp hnd
  have hne : l.Pairwise (fun p q => p.1 ≠ q.1) := List.pairwise_map.mp hnd
  have hne' : l'.Pairwise (fun p q => p.1 ≠ q.1) := List.pairwise_map.mp hnd'
  have hcomb := hs.and hne
  have hcomb' := hs'.and hne'
  exact @List.eq_of_perm_of_sorted _
    (fun p q => leKey p q = true ∧ p.1 ≠ q.1)
    ⟨fun a b hab hba => absurd (strLe_antisymm _ _ hab.1 hba.1) hab.2⟩
    _ _ h hcomb hcomb'

theorem map_canon_eq_of_forall₂ {b c : List (String × List String)}
    (h : List.Forall₂ (fun p q => p.1 = q.1 ∧ p.2.Perm q.2) b c) :
    b.map (fun p => (p.1, sortStrings p.2)) =
      c.map (fun p => (p.1, sortStrings p.2)) := by
  induction h with
  | nil => rfl
  | cons hpq _ ih =>
    simp only [List.map_cons, ih, List.cons.injEq, and_true]
    exact Prod.ext hpq.1 (sortStrings_congr hpq.2)

/-- Signature invariance under key and value-array permutation, proved
once and shared by the canonicality and bundle-construction results. -/
theorem signature_eq_of_bundlePerm {b b' : List (String × List String)}
    (hnd : (b.map Prod.fst).Nodup) (h : BundlePerm b b') :
    createBundleSignature b = createBundleSignature b' := by
  rcases h with ⟨c, hbc, hcb'⟩
  have hmapeq : b.map (fun p => (p.1, sortStrings p.2)) =
      c.map (fun p => (p.1, sortStrings p.2)) := map_canon_eq_of_forall₂ hbc
  have hperm : (b.map (fun p => (p.1, sortStrings p.2))).Perm
      (b'.map (fun p => (p.1, sortStrings p.2))) := by
    rw [hmapeq]
    exact hcb'.map _
  have hkeysb' : (b'.map Prod.fst).Nodup := by
    have h1 : (b.map Prod.fst) = (c.map Prod.fst) := by
      have := congrArg (List.map Prod.fst) hmapeq
      simpa [List.map_map, Function.comp] using this
    exact ((hcb'.map Prod.fst).nodup_iff).mp (h1 ▸ hnd)
  have hchain : ((sortBy leKey b).map (fun p => (p.1, sortStrings p.2))).Perm
      ((sortBy leKey b').map (fun p => (p.1, sortStrings p.2))) :=
    (((sortBy_perm leKey b).map _).trans hperm).trans
      ((sortBy_perm leKey b').map _).symm
  have hsortedb : ((sortBy leKey b).map (fun p => (p.1, sortStrings p.2))).Pairwise
      (fun p q => leKey p q = true) := by
    rw [List.pairwise_map]
    exact pairwise_sortBy leKey leKey_trans leKey_total b
  have hsortedb' : ((sortBy leKey b').map (fun p => (p.1, sortStrings p.2))).Pairwise
      (fun p q => leKey p q = true) := by
    rw [List.pairwise_map]
    exact pairwise_sortBy leKey leKey_trans leKey_total b'
  have hndmap : (((sortBy leKey b).map (fun p => (p.1, sortStrings p.2))).map
      Prod.fst).Nodup := by
    have h1 : ((sortBy leKey b).map (fun p => (p.1, sortStrings p.2))).map Prod.fst =
        (sortBy leKey b).map Prod.fst := by
      simp [List.map_map, Function.comp]
    rw [h1]
    exact (((sortBy_perm leKey b).map Prod.fst).nodup_iff).mpr hnd
  exact congrArg serializeBundle
    (eq_of_perm_of_key_sorted hchain hsortedb hsortedb' hndmap)

/-- Claim C6 — Signature canonicality: for every PermissionBundle (a
mapping, so its keys are distinct), permuting its keys and permuting each
value array leaves `createBundleSignature` unchanged. -/
theorem bundle_signature_canonical (b b' : List (String × List String))
    (hnd : (b.map Prod.fst).Nodup) (h : BundlePerm b b') :
    createBundleSignature b = createBundleSignature b' :=
  signature_eq_of_bundlePerm hnd h

/-- Witness for `bundle_signature_canonical` at a concrete bundle, with
both the keys and one value array permuted. -/
theorem bundle_signature_canonical_witness :
    createBundleSignature [("ent_Role", ["Dev", "Admin"]), ("ent_Dept", ["Fin"])] =
      createBundleSignature [("ent_Dept", ["Fin"]), ("ent_Role", ["Admin", "Dev"])] :=
  bundle_signature_canonical _ _ (by decide)
    ⟨[("ent_Role", ["Admin", "Dev"]), ("ent_Dept", ["Fin"])],
      List.Forall₂.cons ⟨rfl, by decide⟩
        (List.Forall₂.cons ⟨rfl, by decide⟩ List.Forall₂.nil),
      by decide⟩

theorem splitTrim_empty : splitTrim "" = [] := rfl

theorem splitTrim_ne_nil_imp {v : String} (h : ¬ splitTrim v = []) : v ≠ "" := by
  intro hc
  rw [hc] at h
  exact h splitTrim_empty

theorem extractBundle_keys_sublist (r : Row) :
    List.Sublist ((extractBundle r).map Prod.fst) (r.map Prod.fst) := by
  induction r with
  | nil => exact List.Sublist.refl _
  | cons kv t ih =>
    rw [extractBundle, List.filterMap_cons]
    by_cases h1 : (isEntCol kv.1 && decide (kv.2 ≠ "")) = true
    · rw [if_pos h1]
      by_cases h2 : (splitTrim kv.2).isEmpty = true
      · rw [if_pos h2, List.map_cons]
        exact (List.Sublist.cons _ ih)
      · rw [if_neg h2, List.map_cons, List.map_cons]
        exact (List.Sublist.cons₂ _ ih)
    · rw [if_neg h1, List.map_cons]
      exact (List.Sublist.cons _ ih)

theorem alookup_extractBundle {r : Row} (hnd : (r.map Prod.fst).Nodup) :
    ∀ {k v : String}, (k, v) ∈ r → isEntCol k = true → ¬ splitTrim v = [] →
      alookup (extractBundle r) k = some (sortStrings (splitTrim v)) := by
  induction r with
  | nil => intro k v hmem _ _; simp at hmem
  | cons kv t ih =>
    intro k v hmem hent hvs
    simp only [List.map_cons, List.nodup_cons] at hnd
    rcases List.mem_cons.mp hmem with heq | hmem'
    · have hk : kv.1 = k := by rw [← heq]
      have hv : kv.2 = v := by rw [← heq]
      subst hk; subst hv
      have hvne : kv.2 ≠ "" := splitTrim_ne_nil_imp hvs
      rw [extractBundle, List.filterMap_cons,
        if_pos (by simp [hent, hvne]),
        if_neg (by simpa [List.isEmpty_iff] using hvs)]
      simp [alookup]
    · have hkne : kv.1 ≠ k := by
        intro hc
        exact hnd.1 (hc ▸ List.mem_map_of_mem Prod.fst hmem')
      rw [extractBundle, List.filterMap_cons]
      by_cases h1 : (isEntCol kv.1 && decide (kv.2 ≠ "")) = true
      · rw [if_pos h1]
        by_cases h2 : (splitTrim kv.2).isEmpty = true
        · rw [if_pos h2]
          exact ih hnd.2 hmem' hent hvs
        · rw [if_neg h2]
          simp only [alookup]
          rw [if_neg hkne]
          exact ih hnd.2 hmem' hent hvs
      · rw [if_neg h1]
        exact ih hnd.2 hmem' hent hvs

theorem extractBundle_eq_of_forall₂ {r c : Row}
    (h : List.Forall₂
      (fun p q => p.1 = q.1 ∧ (splitTrim p.2).Perm (splitTrim q.2)) r c) :
    extractBundle r = extractBundle c := by
  induction h with
  | nil => rfl
  | cons hpq htail ih =>
    rename_i p q r' c'
    rw [extractBundle, extractBundle, List.filterMap_cons, List.filterMap_cons]
    have hkey : p.1 = q.1 := hpq.1
    have hsp : (splitTrim p.2).Perm (splitTrim q.2) := hpq.2
    have hnil : splitTrim p.2 = [] ↔ splitTrim q.2 = [] := by
      constructor
      · intro hc; exact (hc ▸ hsp).symm.eq_nil
      · intro hc; exact (hc ▸ hsp).eq_nil
    by_cases hpe : splitTrim p.2 = []
    · have hqe : splitTrim q.2 = [] := hnil.mp hpe
      have hp1 : (if (isEntCol p.1 && decide (p.2 ≠ "")) = true then
          if (splitTrim p.2).isEmpty then none
          else some (p.1, sortStrings (splitTrim p.2))
        else none) = none := by
        by_cases hc : (isEntCol p.1 && decide (p.2 ≠ "")) = true
        · rw [if_pos hc, if_pos (by simp [List.isEmpty_iff, hpe])]
        · rw [if_neg hc]
      have hq1 : (if (isEntCol q.1 && decide (q.2 ≠ "")) = true then
          if (splitTrim q.2).isEmpty then none
          else some (q.1, sortStrings (splitTrim q.2))
        else none) = none := by
        by_cases hc : (isEntCol q.1 && decide (q.2 ≠ "")) = true
        · rw [if_pos hc, if_pos (by simp [List.isEmpty_iff, hqe])]
        · rw [if_neg hc]
      rw [hp1, hq1]
      exact ih
    · have hqe : ¬ splitTrim q.2 = [] := fun hc => hpe (hnil.mpr hc)
      have hpv : p.2 ≠ "" := splitTrim_ne_nil_imp hpe
      have hqv : q.2 ≠ "" := splitTrim_ne_nil_imp hqe
      by_cases hent : isEntCol p.1 = true
      · have hp1 : (if (isEntCol p.1 && decide (p.2 ≠ "")) = true then
            if (splitTrim p.2).isEmpty = true then none
            else some (p.1, sortStrings (splitTrim p.2))
          else none) = some (p.1, sortStrings (splitTrim p.2)) := by
          rw [if_pos (by simp [hent, hpv]),
            if_neg (by simpa [List.isEmpty_iff] using hpe)]
        have hq1 : (if (isEntCol q.1 && decide (q.2 ≠ "")) = true then
            if (splitTrim q.2).isEmpty = true then none
            else some (q.1, sortStrings (splitTrim q.2))
          else none) = some (q.1, sortStrings (splitTrim q.2)) := by
          rw [if_pos (by simp [hkey ▸ hent, hqv]),
            if_neg (by simpa [List.isEmpty_iff] using hqe)]
        rw [hp1, hq1]
        show (p.1, sortStrings (splitTrim p.2)) :: extractBundle r' =
          (q.1, sortStrings (splitTrim q.2)) :: extractBundle c'
        rw [hkey, sortStrings_congr hsp, ih]
      · have hp1 : (if (isEntCol p.1 && decide (p.2 ≠ "")) = true then
            if (splitTrim p.2).isEmpty = true then none
            else some (p.1, sortStrings (splitTrim p.2))
          else none) = none := by
          rw [if_neg (by simp [hent])]
        have hq1 : (if (isEntCol q.1 && decide (q.2 ≠ "")) = true then
            if (splitTrim q.2).isEmpty = true then none
            else some (q.1, sortStrings (splitTrim q.2))
          else none) = none := by
          rw [if_neg (by simp [hkey ▸ hent])]
        rw [hp1, hq1]
        exact ih

/-- Claim C7 (amended) — PermissionBundle construction without
deduplication: the extracted bundle maps each `ent_`-prefixed column whose
cell splits to a non-empty list to the sorted — but not deduplicated —
array of the cell's comma-split, trimmed values, and two rows whose cells
denote the same value multisets per column (in any column/value order)
get equal bundles and therefore equal signatures. The literal claim's
"deduplicated" fails: see the counterexample. -/
theorem extractBundle_spec (r r' : Row) (hnd : (r.map Prod.fst).Nodup) :
    (∀ kv ∈ r, isEntCol kv.1 = true → ¬ splitTrim kv.2 = [] →
      alookup (extractBundle r) kv.1 = some (sortStrings (splitTrim kv.2))) ∧
    (RowValuesPerm r r' →
      createBundleSignature (extractBundle r) =
        createBundleSignature (extractBundle r')) := by
  constructor
  · intro kv hmem hent hvs
    exact alookup_extractBundle hnd hmem hent hvs
  · intro ⟨c, hf, hcr'⟩
    have heq : extractBundle r = extractBundle c := extractBundle_eq_of_forall₂ hf
    have hperm : (extractBundle c).Perm (extractBundle r') := hcr'.filterMap _
    have hndb : ((extractBundle r).map Prod.fst).Nodup :=
      (extractBundle_keys_sublist r).nodup hnd
    refine signature_eq_of_bundlePerm hndb ⟨extractBundle r, ?_, ?_⟩
    · exact List.forall₂_same.mpr (fun p _ => ⟨rfl, List.Perm.refl _⟩)
    · rw [heq]; exact hperm

/-- Witness for `extractBundle_spec`: a row whose cell repeats a value,
against a reordering of the same row with the cell's list permuted. -/
theorem extractBundle_spec_witness :
    alookup (extractBundle [("ent_Perm", "View, View,Edit"), ("user", "a")])
        "ent_Perm" = some (sortStrings (splitTrim "View, View,Edit")) ∧
    createBundleSignature
        (extractBundle [("ent_Perm", "View, View,Edit"), ("user", "a")]) =
      createBundleSignature
        (extractBundle [("user", "a"), ("ent_Perm", "Edit,View,View")]) :=
  ⟨(extractBundle_spec [("ent_Perm", "View, View,Edit"), ("user", "a")]
      [("user", "a"), ("ent_Perm", "Edit,View,View")] (by decide)).1
      ("ent_Perm", "View, View,Edit") (by decide) (by decide) (by decide),
   (extractBundle_spec [("ent_Perm", "View, View,Edit"), ("user", "a")]
      [("user", "a"), ("ent_Perm", "Edit,View,View")] (by decide)).2
      ⟨[("ent_Perm", "Edit,View,View"), ("user", "a")],
        List.Forall₂.cons ⟨rfl, by decide⟩
          (List.Forall₂.cons ⟨rfl, by decide⟩ List.Forall₂.nil),
        by decide⟩⟩

/-- Counterexample to the literal Claim C7: `extractBundle` does not
deduplicate — a cell listing a value twice yields the value twice in the
bundle, and a row listing `A` twice gets a different signature from a row
listing `A` once, although both denote the same value set. -/
theorem extractBundle_no_dedup :
    alookup (extractBundle [("ent_Role", "A,A")]) "ent_Role" = some ["A", "A"] ∧
    ¬ createBundleSignature (extractBundle [("ent_Role", "A,A")]) =
        createBundleSignature (extractBundle [("ent_Role", "A")]) := by
  decide

theorem analyzeRoles_cands_invariant (records : List Row) (t : Nat) :
    ∀ c ∈ (analyzeRoles records t).roleCandidates,
      c.percentage = ((c.userCount : ℚ) / ((records.length : Nat) : ℚ)) * 100 := by
  intro c hc
  have hmem : c ∈ (bundleGroups records).foldl
      (fun acc g =>
        if g.2.length ≥ t then
          acc ++ [{ roleName := generateRoleName (g.2.headD (("unknown"), [])).2 acc.length
                    userCount := g.2.length
                    percentage := ((g.2.length : ℚ) / ((records.length : Nat) : ℚ)) * 100
                    users := g.2.map Prod.fst
                    permissions := (g.2.headD (("unknown"), [])).2 }]
        else acc)
      [] :=
    (sortBy_perm _ _).mem_iff.mp hc
  suffices hgen : ∀ (gs : List (String × List (String × Bundle)))
      (acc : List RoleCandidate),
      (∀ c ∈ acc, c.percentage = ((c.userCount : ℚ) / ((records.length : Nat) : ℚ)) * 100) →
      ∀ c ∈ gs.foldl
        (fun acc g =>
          if g.2.length ≥ t then
            acc ++ [{ roleName := generateRoleName (g.2.headD (("unknown"), [])).2 acc.length
                      userCount := g.2.length
                      percentage := ((g.2.length : ℚ) / ((records.length : Nat) : ℚ)) * 100
                      users := g.2.map Prod.fst
                      permissions := (g.2.headD (("unknown"), [])).2 }]
          else acc)
        acc,
        c.percentage = ((c.userCount : ℚ) / ((records.length : Nat) : ℚ)) * 100 by
    exact hgen (bundleGroups records) [] (by simp) c hmem
  intro gs
  induction gs with
  | nil => intro acc hacc c hc'; exact hacc c hc'
  | cons g tl ih =>
    intro acc hacc c hc'
    rw [List.foldl_cons] at hc'
    by_cases hg : g.2.length ≥ t
    · rw [if_pos hg] at hc'
      refine ih _ ?_ c hc'
      intro c' hc''
      rcases List.mem_append.mp hc'' with h | h
      · exact hacc c' h
      · have : c' = { roleName := generateRoleName (g.2.headD (("unknown"), [])).2 acc.length
                      userCount := g.2.length
                      percentage := ((g.2.length : ℚ) / ((records.length : Nat) : ℚ)) * 100
                      users := g.2.map Prod.fst
                      permissions := (g.2.headD (("unknown"), [])).2 } := by
          simpa using h
        rw [this]
    · rw [if_neg hg] at hc'
      exact ih _ hacc c hc'

/-- Claim C8 — Role Miner coverage denominator: every emitted candidate's
percentage is its member count over the number of rows passed to
`analyzeRoles` — all of them, including rows later skipped for empty
bundles — times 100. -/
theorem analyzeRoles_percentage (records : List Row) (t : Nat) (i : Nat)
    (h : i < ((analyzeRoles records t).roleCandidates).length) :
    (((analyzeRoles records t).roleCandidates).get ⟨i, h⟩).percentage =
      ((((analyzeRoles records t).roleCandidates).get ⟨i, h⟩).userCount : ℚ) /
        ((records.length : Nat) : ℚ) * 100 :=
  analyzeRoles_cands_invariant records t _ (List.get_mem _ i h)

/-- Witness for `analyzeRoles_percentage`: the candidate covers 2 of 4
rows — the denominator counts the two entitlement-less rows too. -/
theorem analyzeRoles_percentage_witness :
    (((analyzeRoles wRecords 2).roleCandidates).get ⟨0, by decide⟩).percentage =
      ((((analyzeRoles wRecords 2).roleCandidates).get ⟨0, by decide⟩).userCount : ℚ) /
        ((wRecords.length : Nat) : ℚ) * 100 :=
  analyzeRoles_percentage wRecords 2 0 (by decide)

theorem addValue_ids (groups : List GrantGroup) (entId : String) (gv : GrantValue)
    (hin : groups.any (fun g => decide (g.id = entId)) = true) :
    (addValue groups entId gv).map GrantGroup.id = groups.map GrantGroup.id := by
  rw [addValue, if_pos hin, List.map_map]
  apply List.map_congr_left
  intro g _
  by_cases hg : g.id = entId
  · by_cases hv : g.values.any (fun v => decide (v.id = gv.id)) = true
    · simp [Function.comp, hg, hv]
    · simp [Function.comp, hg, hv]
  · simp [Function.comp, hg]

theorem addValue_inv {groups : List GrantGroup} (entId : String) (gv : GrantValue)
    (hinv : GrantInv groups) : GrantInv (addValue groups entId gv) := by
  by_cases hin : groups.any (fun g => decide (g.id = entId)) = true
  · constructor
    · rw [addValue_ids groups entId gv hin]
      exact hinv.1
    · intro g hg
      rw [addValue, if_pos hin] at hg
      rcases List.mem_map.mp hg with ⟨g₀, hg₀, rfl⟩
      by_cases hgid : g₀.id = entId
      · rw [if_pos hgid]
        by_cases hv : g₀.values.any (fun v => decide (v.id = gv.id)) = true
        · rw [if_pos hv]
          exact hinv.2 g₀ hg₀
        · rw [if_neg hv]
          have hnotin : gv.id ∉ g₀.values.map GrantValue.id := by
            intro hc
            rcases List.mem_map.mp hc with ⟨v, hvmem, hvid⟩
            exact hv (List.any_eq_true.mpr ⟨v, hvmem, by simp [hvid]⟩)
          rw [show ({ g₀ with values := g₀.values ++ [gv] } : GrantGroup).values =
            g₀.values ++ [gv] from rfl]
          rw [List.map_append]
          rw [List.nodup_append]
          refine ⟨hinv.2 g₀ hg₀, List.nodup_singleton _, ?_⟩
          intro a ha hb
          have hav : a = gv.id := by simpa using hb
          exact hnotin (hav ▸ ha)
      · rw [if_neg hgid]
        exact hinv.2 g₀ hg₀
  · constructor
    · rw [addValue, if_neg hin, List.map_append]
      rw [List.nodup_append]
      refine ⟨hinv.1, List.nodup_singleton _, ?_⟩
      intro a ha hb
      simp only [List.map_cons, List.map_nil, List.mem_singleton] at hb
      subst hb
      rcases List.mem_map.mp ha with ⟨g, hg, hgid⟩
      simp only [List.any_eq_true, decide_eq_true_eq, not_exists, not_and] at hin
      exact hin g hg hgid
    · intro g hg
      rw [addValue, if_neg hin] at hg
      rcases List.mem_append.mp hg with h | h
      · exact hinv.2 g h
      · have : g = { id := entId, values := [gv] } := by simpa using h
        rw [this]
        exact List.nodup_singleton _

theorem resolveValues_inv (ent : Entitlement) (vals : List String) :
    ∀ {groups : List GrantGroup}, GrantInv groups →
      GrantInv (resolveValues ent vals groups) := by
  induction vals with
  | nil => intro groups h; exact h
  | cons val t ih =>
    intro groups h
    have hstep : resolveValues ent (val :: t) groups =
        resolveValues ent t
          (match ent.values.find?
            (fun ev => decide (ev.name ≠ "") && decide (lowerStr ev.name = lowerStr val)) with
          | some ev =>
            if ev.id ≠ "" then addValue groups ent.id (mkGrantValue ev val) else groups
          | none => groups) := rfl
    rw [hstep]
    cases hf : ent.values.find?
        (fun ev => decide (ev.name ≠ "") && decide (lowerStr ev.name = lowerStr val)) with
    | none => exact ih h
    | some ev =>
      by_cases hid : ev.id ≠ ""
      · refine ih ?_
        show GrantInv
          (if ev.id ≠ "" then addValue groups ent.id (mkGrantValue ev val) else groups)
        rw [if_pos hid]
        exact addValue_inv ent.id (mkGrantValue ev val) h
      · refine ih ?_
        show GrantInv
          (if ev.id ≠ "" then addValue groups ent.id (mkGrantValue ev val) else groups)
        rw [if_neg hid]
        exact h

/-- Claim C9 — Grant payload uniqueness: for every row and
entitlement-to-remote-identifier map, the assembled grant payload has at
most one group per entitlement id and no duplicate value id within any
group. -/
theorem buildUserEntitlements_unique (record : Row)
    (entitlementsMap : List (String × Entitlement)) :
    ((buildUserEntitlements record entitlementsMap).map GrantGroup.id).Nodup ∧
    ∀ g ∈ buildUserEntitlements record entitlementsMap,
      (g.values.map GrantValue.id).Nodup := by
  suffices hgen : ∀ (cols : Row) (acc : List GrantGroup), GrantInv acc →
      GrantInv (cols.foldl
        (fun groups kv =>
          if isEntCol kv.1 && decide (kv.2 ≠ "") then
            match alookup entitlementsMap (lowerStr (dropMarker kv.1)) with
            | some ent =>
              if ent.id ≠ "" then resolveValues ent (jsDedup (splitTrim kv.2)) groups
              else groups
            | none => groups
          else groups)
        acc) by
    exact hgen record [] ⟨List.nodup_nil, fun g hg => absurd hg (List.not_mem_nil g)⟩
  intro cols
  induction cols with
  | nil => intro acc h; exact h
  | cons kv t ih =>
    intro acc h
    rw [List.foldl_cons]
    by_cases hcol : (isEntCol kv.1 && decide (kv.2 ≠ "")) = true
    · rw [if_pos hcol]
      cases hf : alookup entitlementsMap (lowerStr (dropMarker kv.1)) with
      | none => exact ih acc h
      | some ent =>
        have hacc : GrantInv
            (if ent.id ≠ "" then resolveValues ent (jsDedup (splitTrim kv.2)) acc
             else acc) := by
          by_cases hid : ent.id ≠ ""
          · rw [if_pos hid]
            exact resolveValues_inv ent _ h
          · rw [if_neg hid]
            exact h
        exact ih _ hacc
    · rw [if_neg hcol]
      exact ih acc h
